import Mathlib

/-!
Shallow embedding of the referral-network library.

The embedded code consists of:
* `InMemoryStorage` (file `storage/InMemoryStorage.ts`): a users map
  (`Map<UserId, UserNode>`) and a referrals map keyed by the string
  `referrer ++ ":" ++ candidate`.  JavaScript `Map`s are modelled as
  insertion-ordered association lists (`Map.set` updates in place, new keys
  append at the end), and in-place object mutation is modelled as updating
  the value stored at a key.  `createdAt : Date` fields carry no logic and
  are omitted.
* `ReferralNetwork` (file `ReferralNetwork.ts`): input validation and the
  sequential constraint checks of `validateReferralConstraints`, then
  delegation to the storage.
* the influence analytics (file `influence.ts`): `topKByReach`,
  `findShortestPath` and `calculateFlowCentrality`.

Unbounded JS loops (the BFS of `canReach`, the DFS of `getAllReferrals` and
`calculateDepth`, the BFS of `findShortestPath`) are embedded with an
explicit fuel argument.  The fuel chosen in each wrapper is an upper bound
on the number of loop iterations the JS code can perform (each queue push
or recursive call is guarded by a visited set), so the embedded function
computes the same result as the JS loop; the fuel-sufficiency arguments are
proved where the claims need them.  JS number division in
`averageReferralsPerUser` is modelled with exact rational division.
JS `Array.prototype.sort` (which ES2019 requires to be stable) is modelled
by the stable `List.mergeSort`, and `localeCompare`-ascending order is
modelled as lexicographic order on the code units.
-/

abbrev UserId := String

/-- String constants used in concrete witness states. -/
def uidA : UserId := "a"

def uidB : UserId := "b"

/-- Model of the `UserNode` record; `createdAt` is omitted. -/
structure UserNode where
  userId : UserId
  directReferrals : List UserId
  parent : Option UserId := none
  deriving Repr, DecidableEq

/-- Model of the `ReferralRelationship` record; `createdAt` is omitted. -/
structure Referral where
  referrer : UserId
  candidate : UserId
  deriving Repr, DecidableEq

/-- Lookup in an insertion-ordered association list (JS `Map.get`). -/
def mget {β : Type} : List (UserId × β) → UserId → Option β
  | [], _ => none
  | (k, v) :: rest, key => if k = key then some v else mget rest key

/-- Update-or-append in an insertion-ordered association list (JS `Map.set`):
an existing key keeps its position, a new key is appended at the end. -/
def mset {β : Type} : List (UserId × β) → UserId → β → List (UserId × β)
  | [], key, v => [(key, v)]
  | (k, v') :: rest, key, v =>
      if k = key then (k, v) :: rest else (k, v') :: mset rest key v

/-- State of `InMemoryStorage`: the `users` map and the `referrals` map
(keyed by the string `referrer ++ ":" ++ candidate`). -/
structure Storage where
  users : List (UserId × UserNode)
  referrals : List (String × Referral)
  deriving Repr, DecidableEq

def Storage.empty : Storage := { users := [], referrals := [] }

/-- Model of mutating the `UserNode` object stored under a key in place. -/
def updateUser (s : Storage) (id : UserId) (f : UserNode → UserNode) : Storage :=
  { s with users := s.users.map (fun kv => if kv.1 = id then (kv.1, f kv.2) else kv) }

/-- Model of `InMemoryStorage.addUser` (without the `createdAt` argument):
a no-op when the user exists, otherwise insert a fresh node. -/
def InMemoryStorage.addUser (s : Storage) (userId : UserId) : Storage :=
  match mget s.users userId with
  | some _ => s
  | none =>
      { s with users := s.users ++ [(userId, { userId := userId, directReferrals := [], parent := none })] }

/-- Model of `InMemoryStorage.addReferral`: record the relationship under the
key `referrer ++ ":" ++ candidate`, create both endpoint users, append the
candidate to the referrer's `directReferrals` unless already present, and
set the candidate's parent. -/
def InMemoryStorage.addReferral (s : Storage) (referrer candidate : UserId) : Storage :=
  let s1 : Storage :=
    { s with referrals := mset s.referrals (referrer ++ ":" ++ candidate) ⟨referrer, candidate⟩ }
  let s2 := InMemoryStorage.addUser s1 referrer
  let s3 := InMemoryStorage.addUser s2 candidate
  let s4 := updateUser s3 referrer (fun n =>
    if candidate ∈ n.directReferrals then n
    else { n with directReferrals := n.directReferrals ++ [candidate] })
  updateUser s4 candidate (fun n => { n with parent := some referrer })

/-- Model of `InMemoryStorage.getAllUsers` (the map's values in insertion
order). -/
def InMemoryStorage.getAllUsers (s : Storage) : List UserNode :=
  s.users.map (·.2)

/-- Model of `InMemoryStorage.getDirectReferrals`. -/
def InMemoryStorage.getDirectReferrals (s : Storage) (userId : UserId) : List UserId :=
  match mget s.users userId with
  | some n => n.directReferrals
  | none => []

/-- Model of `InMemoryStorage.getParent`.  The JS expression
`user?.parent || null` turns both a missing user, a missing parent field and
an empty-string parent into `null`. -/
def InMemoryStorage.getParent (s : Storage) (userId : UserId) : Option UserId :=
  match mget s.users userId with
  | none => none
  | some n =>
      match n.parent with
      | none => none
      | some p => if p = "" then none else some p

/-- Inner loop body of the DFS of `InMemoryStorage.getAllReferrals`: the
state is the pair (visited set, result list); every child is pushed onto the
result before the recursive call, which returns immediately on a visited
node. -/
def garAux (s : Storage) : Nat → (List UserId × List UserId) → UserId → List UserId × List UserId
  | 0, st, _ => st
  | fuel + 1, (vis, res), cur =>
      if cur ∈ vis then (vis, res)
      else
        let vis' := cur :: vis
        match mget s.users cur with
        | none => (vis', res)
        | some node =>
            node.directReferrals.foldl
              (fun st child => garAux s fuel (st.1, st.2 ++ [child]) child)
              (vis', res)

/-- Model of `InMemoryStorage.getAllReferrals`: DFS from `userId` with a
visited set, collecting every child encountered.  The recursion depth of the
JS function is at most `users.size + 2`, which the fuel covers. -/
def InMemoryStorage.getAllReferrals (s : Storage) (userId : UserId) : List UserId :=
  (garAux s (s.users.length + 2) ([], []) userId).2

/-- Total number of entries of all `directReferrals` lists; used to bound
the number of BFS iterations. -/
def totalChildren (s : Storage) : Nat :=
  (s.users.map (fun kv => kv.2.directReferrals.length)).sum

/-- Inner `for` loop of `InMemoryStorage.canReach`: scan the children of the
current node; `none` signals that the target was found, otherwise return the
updated visited set together with the nodes newly appended to the queue. -/
def crScan (target : UserId) : List UserId → List UserId → List UserId → Option (List UserId × List UserId)
  | [], vis, acc => some (vis, acc)
  | child :: cs, vis, acc =>
      if child = target then none
      else if child ∈ vis then crScan target cs vis acc
      else crScan target cs (child :: vis) (acc ++ [child])

/-- Outer `while` loop of `InMemoryStorage.canReach` (BFS with a visited set
and a queue). -/
def canReachAux (s : Storage) (target : UserId) : Nat → List UserId → List UserId → Bool
  | 0, _, _ => false
  | _ + 1, _, [] => false
  | fuel + 1, vis, cur :: rest =>
      match mget s.users cur with
      | none => canReachAux s target fuel vis rest
      | some node =>
          match crScan target node.directReferrals vis [] with
          | none => true
          | some (vis', adds) => canReachAux s target fuel vis' (rest ++ adds)

/-- Model of `InMemoryStorage.canReach`: immediate `true` when
`start = target`, otherwise BFS along child edges.  Every queue push is
guarded by the visited set and pushed ids come from `directReferrals`
lists, so the JS loop performs at most `users.size + totalChildren + 1`
iterations; the fuel covers this. -/
def InMemoryStorage.canReach (s : Storage) (start target : UserId) : Bool :=
  if start = target then true
  else canReachAux s target (s.users.length + totalChildren s + 2) [start] [start]

/-- Model of `InMemoryStorage.wouldCreateCycle`. -/
def InMemoryStorage.wouldCreateCycle (s : Storage) (referrer candidate : UserId) : Bool :=
  InMemoryStorage.canReach s candidate referrer

/-- Recursive DFS of `InMemoryStorage.calculateDepth`; the visited set is
shared across sibling subtrees (it is threaded through the fold), matching
the JS closure over a single `Set`.  Returns the computed depth and the
updated visited set. -/
def depthAux (s : Storage) : Nat → List UserId → UserId → Nat × List UserId
  | 0, vis, _ => (0, vis)
  | fuel + 1, vis, cur =>
      if cur ∈ vis then (0, vis)
      else
        let vis' := cur :: vis
        match mget s.users cur with
        | none => (0, vis')
        | some node =>
            if node.directReferrals.isEmpty then (0, vis')
            else
              let r := node.directReferrals.foldl
                (fun st child =>
                  let r := depthAux s fuel st.2 child
                  (max st.1 r.1, r.2))
                ((0 : Nat), vis')
              (1 + r.1, r.2)

/-- Model of `InMemoryStorage.calculateDepth`; the recursion depth of the JS
function is at most `users.size + 2`, which the fuel covers. -/
def InMemoryStorage.calculateDepth (s : Storage) (userId : UserId) : Nat :=
  (depthAux s (s.users.length + 2) [] userId).1

/-- Model of the `NetworkStats` record; `averageReferralsPerUser` (a JS
number) is modelled as an exact rational. -/
structure NetworkStats where
  totalUsers : Nat
  totalReferrals : Nat
  maxDepth : Nat
  averageReferralsPerUser : ℚ
  deriving Repr, DecidableEq

/-- Model of `InMemoryStorage.getNetworkStats`. -/
def InMemoryStorage.getNetworkStats (s : Storage) : NetworkStats :=
  let totalUsers := s.users.length
  let totalReferrals := s.referrals.length
  let maxDepth := s.users.foldl (fun acc kv => max acc (InMemoryStorage.calculateDepth s kv.2.userId)) 0
  let totalReferralsPerUser := totalChildren s
  { totalUsers := totalUsers
    totalReferrals := totalReferrals
    maxDepth := maxDepth
    averageReferralsPerUser :=
      if totalUsers > 0 then (totalReferralsPerUser : ℚ) / (totalUsers : ℚ) else 0 }

/-- Model of the `ReferralErrorType` enum. -/
inductive ErrKind where
  | SELF_REFERRAL
  | MULTIPLE_REFERRERS
  | CYCLE_DETECTED
  | NETWORK_SIZE_LIMIT
  | REFERRAL_LIMIT
  | USER_NOT_FOUND
  | INVALID_INPUT
  | STORAGE_ERROR
  deriving Repr, DecidableEq

/-- Model of `ReferralNetworkConfig`; the optional numeric limits are
`Option Nat` (`none` = the JS field is `undefined`). -/
structure Config where
  allowSelfReferrals : Bool := false
  allowMultipleReferrers : Bool := false
  allowCycles : Bool := false
  maxNetworkSize : Option Nat := none
  maxReferralsPerUser : Option Nat := none
  deriving Repr, DecidableEq

def Config.default : Config := {}

/-- Model of `ReferralNetwork.isValidUserId` (`userId.trim().length > 0`):
the trimmed form of a string is nonempty exactly when some character is not
whitespace, which is how the check is phrased here so that it evaluates by
kernel reduction. -/
def isValidUserId (userId : UserId) : Bool :=
  userId.data.any (fun ch => !ch.isWhitespace)

/-- Truthiness of an optional JS number: `undefined` and `0` are falsy. -/
def optTruthy : Option Nat → Bool
  | none => false
  | some n => n ≠ 0

/-- Condition of the self-referral rejection in
`ReferralNetwork.validateReferralConstraints`. -/
def selfCheckFails (cfg : Config) (referrer candidate : UserId) : Bool :=
  !cfg.allowSelfReferrals && referrer = candidate

/-- Condition of the multiple-referrers rejection: the candidate has a
(truthy) existing parent different from the referrer. -/
def multiCheckFails (cfg : Config) (s : Storage) (referrer candidate : UserId) : Bool :=
  !cfg.allowMultipleReferrers &&
    (match InMemoryStorage.getParent s candidate with
     | some p => p ≠ referrer
     | none => false)

/-- Condition of the cycle rejection. -/
def cycleCheckFails (cfg : Config) (s : Storage) (referrer candidate : UserId) : Bool :=
  !cfg.allowCycles && InMemoryStorage.wouldCreateCycle s referrer candidate

/-- Condition of the network-size rejection (`maxNetworkSize` must be
truthy, i.e. set and nonzero). -/
def sizeCheckFails (cfg : Config) (s : Storage) : Bool :=
  optTruthy cfg.maxNetworkSize &&
    (InMemoryStorage.getNetworkStats s).totalUsers ≥ cfg.maxNetworkSize.getD 0

/-- Condition of the per-user referral-limit rejection. -/
def limitCheckFails (cfg : Config) (s : Storage) (referrer : UserId) : Bool :=
  optTruthy cfg.maxReferralsPerUser &&
    (InMemoryStorage.getDirectReferrals s referrer).length ≥ cfg.maxReferralsPerUser.getD 0

/-- Model of `ReferralNetwork.validateReferralConstraints`: the sequential
constraint checks (self-referral, multiple referrers, cycle, network size,
referral limit), returning the first error or `none`. -/
def validateReferralConstraints (cfg : Config) (s : Storage) (referrer candidate : UserId) :
    Option ErrKind :=
  if selfCheckFails cfg referrer candidate then some .SELF_REFERRAL
  else if multiCheckFails cfg s referrer candidate then some .MULTIPLE_REFERRERS
  else if cycleCheckFails cfg s referrer candidate then some .CYCLE_DETECTED
  else if sizeCheckFails cfg s then some .NETWORK_SIZE_LIMIT
  else if limitCheckFails cfg s referrer then some .REFERRAL_LIMIT
  else none

/-- Model of `ReferralNetwork.addReferral`: validate both inputs, run the
constraint checks, and only on success delegate to the storage.  The result
is the returned error (`none` = success) paired with the post-call storage
state. -/
def ReferralNetwork.addReferral (cfg : Config) (s : Storage) (referrer candidate : UserId) :
    Option ErrKind × Storage :=
  if !isValidUserId referrer then (some .INVALID_INPUT, s)
  else if !isValidUserId candidate then (some .INVALID_INPUT, s)
  else
    match validateReferralConstraints cfg s referrer candidate with
    | some e => (some e, s)
    | none => (none, InMemoryStorage.addReferral s referrer candidate)

/-- Model of `ReferralNetwork.allReferrals` (validation plus read-through to
the storage); returns `none` on an invalid user id, mirroring the
`INVALID_INPUT` failure. -/
def ReferralNetwork.allReferrals (s : Storage) (user : UserId) : Option (List UserId) :=
  if !isValidUserId user then none
  else some (InMemoryStorage.getAllReferrals s user)

/-- Lexicographic order on code units, the model of `localeCompare`-ascending
tie-breaking. -/
def charListLe : List Char → List Char → Bool
  | [], _ => true
  | _ :: _, [] => false
  | a :: as, b :: bs =>
      if a.val < b.val then true
      else if b.val < a.val then false
      else charListLe as bs

def strLe (a b : String) : Bool := charListLe a.data b.data

/-- Comparator of `topKByReach` as a Boolean total preorder: reach
descending, then userId ascending. -/
def reachLe (a b : UserId × Nat) : Bool :=
  if a.2 = b.2 then strLe a.1 b.1 else b.2 < a.2

/-- Model of `calculateReach`: the length of `allReferrals`, failing
(`none`) exactly when `allReferrals` fails. -/
def calculateReach (s : Storage) (user : UserId) : Option Nat :=
  (ReferralNetwork.allReferrals s user).map List.length

/-- Reach pairs computed by the loop of `topKByReach`: a user whose
`calculateReach` fails is skipped. -/
def userReachPairs (s : Storage) : List (UserId × Nat) :=
  (InMemoryStorage.getAllUsers s).filterMap
    (fun n => (calculateReach s n.userId).map (fun r => (n.userId, r)))

/-- Message of the exception thrown by `topKByReach` on negative `k`. -/
def msgKNonNegative : String := "k must be non-negative"

/-- Model of `topKByReach` (file `influence.ts`, the version with the
default parameter `k = 5`): negative `k` throws, `k = 0` or an empty
network yields `[]`, otherwise sort the reach pairs with the stable
comparator and take the first `k` user ids. -/
def topKByReach (s : Storage) (k : Int) : Except String (List UserId) :=
  if k < 0 then .error msgKNonNegative
  else if k = 0 ∨ (InMemoryStorage.getAllUsers s).length = 0 then .ok []
  else
    .ok ((((userReachPairs s).mergeSort reachLe).take k.toNat).map (·.1))

/-- Model of calling `topKByReach` with the caller omitting `k`, so that the
default parameter value `5` applies. -/
def topKByReachDefault (s : Storage) : Except String (List UserId) :=
  topKByReach s 5

/-- Inner `for` loop of `findShortestPath`: scan the children of the current
node, whose stored path is `p`.  `Except.error` carries the completed path
when the target is found; otherwise return the updated visited set together
with the new queue entries. -/
def fspScan (target : UserId) (p : List UserId) :
    List UserId → List UserId → List (UserId × List UserId) →
    Except (List UserId) (List UserId × List (UserId × List UserId))
  | [], vis, acc => .ok (vis, acc)
  | child :: cs, vis, acc =>
      if child = target then .error (p ++ [child])
      else if child ∈ vis then fspScan target p cs vis acc
      else fspScan target p cs (child :: vis) (acc ++ [(child, p ++ [child])])

/-- Outer `while` loop of `findShortestPath` (BFS storing full paths in the
queue).  A node whose id fails validation is skipped, mirroring the
`continue` on a failed `directReferrals` call. -/
def fspAux (s : Storage) (target : UserId) :
    Nat → List UserId → List (UserId × List UserId) → Option (List UserId)
  | 0, _, _ => none
  | _ + 1, _, [] => none
  | fuel + 1, vis, (cur, p) :: rest =>
      if !isValidUserId cur then fspAux s target fuel vis rest
      else
        match fspScan target p (InMemoryStorage.getDirectReferrals s cur) vis [] with
        | .error found => some found
        | .ok (vis', adds) => fspAux s target fuel vis' (rest ++ adds)

/-- Model of `findShortestPath` (file `influence.ts`): `[source]` when
`source = target`, otherwise BFS along child edges.  The fuel covers the
iteration bound of the JS loop (each push is guarded by the visited set and
pushed ids come from `directReferrals` lists). -/
def findShortestPath (s : Storage) (source target : UserId) : Option (List UserId) :=
  if source = target then some [source]
  else fspAux s target (s.users.length + totalChildren s + 2) [source] [(source, [source])]

/-- Model of `calculateFlowCentrality` (file `influence.ts`): count over all
ordered pairs `(a, b)` of users distinct from `user` and from each other the
cases where the found shortest path has more than two nodes and `user` is
among its interior nodes (`path.slice(1, -1)`). -/
def calculateFlowCentrality (s : Storage) (user : UserId) : Nat :=
  let ids := (InMemoryStorage.getAllUsers s).map (·.userId)
  (ids.filter (fun a => a ≠ user)).foldl
    (fun acc a =>
      acc + ((ids.filter (fun b => b ≠ user ∧ b ≠ a)).countP
        (fun b =>
          match findShortestPath s a b with
          | some p => decide (p.length > 2 ∧ user ∈ p.tail.dropLast)
          | none => false)))
    0

/-! ## Semantic layer: edges, reachability, reachable states -/

/-- Child list of a user (the structural out-edges). -/
def children (s : Storage) (u : UserId) : List UserId :=
  InMemoryStorage.getDirectReferrals s u

/-- Structural edge relation: `c` is a direct referral of `r`. -/
def Edge (s : Storage) (r c : UserId) : Prop :=
  c ∈ children s r

instance (s : Storage) (r c : UserId) : Decidable (Edge s r c) := by
  unfold Edge; infer_instance

/-- Reflexive-transitive reachability along child edges. -/
inductive Reach (s : Storage) : UserId → UserId → Prop
  | refl (a : UserId) : Reach s a a
  | step {a b c : UserId} : Edge s a b → Reach s b c → Reach s a c

/-- Reachability by at least one edge. -/
def ReachPos (s : Storage) (a b : UserId) : Prop :=
  ∃ m, Edge s a m ∧ Reach s m b

/-- Absence of directed cycles. -/
def Acyclic (s : Storage) : Prop :=
  ∀ u, ¬ ReachPos s u u

/-- Storage states reachable from the empty store by `addReferral` calls
whose configurations satisfy `P`. -/
inductive ReachableCfg (P : Config → Prop) : Storage → Prop
  | empty : ReachableCfg P Storage.empty
  | step {s : Storage} (cfg : Config) (r c : UserId) :
      P cfg → ReachableCfg P s →
      ReachableCfg P (ReferralNetwork.addReferral cfg s r c).2

/-- States reachable using only the default configuration. -/
def ReachableDefault : Storage → Prop :=
  ReachableCfg (· = Config.default)

/-- States reachable under arbitrary configurations. -/
def ReachableAny : Storage → Prop :=
  ReachableCfg (fun _ => True)

theorem Reach.trans {s : Storage} {a b c : UserId} (h₁ : Reach s a b) (h₂ : Reach s b c) :
    Reach s a c := by
  induction h₁ with
  | refl => exact h₂
  | step e _ ih => exact .step e (ih h₂)

theorem Reach.tail {s : Storage} {a b c : UserId} (h : Reach s a b) (e : Edge s b c) :
    Reach s a c :=
  h.trans (.step e (.refl c))

theorem Reach.of_edge {s : Storage} {a b : UserId} (e : Edge s a b) : Reach s a b :=
  .step e (.refl b)

/-- Decomposition of a reachability derivation at its last edge. -/
theorem Reach.last_decomp {s : Storage} {a b : UserId} (h : Reach s a b) :
    a = b ∨ ∃ p, Reach s a p ∧ Edge s p b := by
  induction h with
  | refl => exact .inl rfl
  | step e _ ih =>
      rcases ih with rfl | ⟨p, hp, hpb⟩
      · exact .inr ⟨_, .refl _, e⟩
      · exact .inr ⟨p, .step e hp, hpb⟩

theorem ReachPos.to_reach {s : Storage} {a b : UserId} (h : ReachPos s a b) : Reach s a b := by
  obtain ⟨m, e, hm⟩ := h
  exact .step e hm

theorem reachPos_iff {s : Storage} {a b : UserId} :
    ReachPos s a b ↔ ∃ c ∈ children s a, c = b ∨ ReachPos s c b := by
  constructor
  · rintro ⟨m, e, hm⟩
    cases hm with
    | refl => exact ⟨_, e, .inl rfl⟩
    | step e' hm' => exact ⟨m, e, .inr ⟨_, e', hm'⟩⟩
  · rintro ⟨c, hc, rfl | hcb⟩
    · exact ⟨c, hc, .refl c⟩
    · exact ⟨c, hc, hcb.to_reach⟩

/-! ## Association-list map lemmas -/

theorem mget_append {β : Type} (l₁ l₂ : List (UserId × β)) (k : UserId) :
    mget (l₁ ++ l₂) k = match mget l₁ k with
      | some v => some v
      | none => mget l₂ k := by
  induction l₁ with
  | nil => simp [mget]
  | cons hd tl ih =>
      obtain ⟨k', v'⟩ := hd
      by_cases h : k' = k <;> simp [mget, h, ih]

theorem mget_mem {β : Type} {l : List (UserId × β)} {k : UserId} {v : β}
    (h : mget l k = some v) : (k, v) ∈ l := by
  induction l with
  | nil => simp [mget] at h
  | cons hd tl ih =>
      obtain ⟨k', v'⟩ := hd
      by_cases hk : k' = k
      · subst hk
        simp [mget] at h
        subst h; exact .head _
      · simp [mget, hk] at h
        exact .tail _ (ih h)

theorem mem_mget {β : Type} {l : List (UserId × β)} {k : UserId} {v : β}
    (hnd : (l.map (·.1)).Nodup) (h : (k, v) ∈ l) : mget l k = some v := by
  induction l with
  | nil => simp at h
  | cons hd tl ih =>
      obtain ⟨k', v'⟩ := hd
      simp only [List.map_cons, List.nodup_cons] at hnd
      rcases List.mem_cons.mp h with heq | hmem
      · obtain ⟨rfl, rfl⟩ := Prod.mk.inj heq
        simp [mget]
      · have hk : k' ≠ k := by
          rintro rfl
          exact hnd.1 (List.mem_map.mpr ⟨(k', v), hmem, rfl⟩)
        simp [mget, hk]
        exact ih hnd.2 hmem

theorem mget_isSome_iff_mem_keys {β : Type} {l : List (UserId × β)} {k : UserId} :
    (mget l k).isSome ↔ k ∈ l.map (·.1) := by
  induction l with
  | nil => simp [mget]
  | cons hd tl ih =>
      obtain ⟨k', v'⟩ := hd
      by_cases h : k' = k
      · subst h; simp [mget]
      · simp [mget, h, ih, Ne.symm h]

theorem mget_eq_none_of_not_mem_keys {β : Type} {l : List (UserId × β)} {k : UserId}
    (h : k ∉ l.map (·.1)) : mget l k = none := by
  cases hm : mget l k with
  | none => rfl
  | some v =>
      exact absurd (mget_isSome_iff_mem_keys.mp (by simp [hm])) h

theorem mset_keys {β : Type} (l : List (UserId × β)) (k : UserId) (v : β) :
    (mset l k v).map (·.1) = if k ∈ l.map (·.1) then l.map (·.1) else l.map (·.1) ++ [k] := by
  induction l with
  | nil => simp [mset]
  | cons hd tl ih =>
      obtain ⟨k', v'⟩ := hd
      by_cases h : k' = k
      · subst h; simp [mset]
      · by_cases hmem : k ∈ tl.map (·.1) <;>
          simp [mset, h, Ne.symm h, hmem, ih]

theorem mset_mem_of_mem {β : Type} {l : List (UserId × β)} {k' : UserId} {v' : β}
    (k : UserId) (v : β) (h : (k', v') ∈ l) (hne : k' ≠ k) : (k', v') ∈ mset l k v := by
  induction l with
  | nil => simp at h
  | cons hd tl ih =>
      obtain ⟨k₀, v₀⟩ := hd
      by_cases hk : k₀ = k
      · subst hk
        rcases List.mem_cons.mp h with heq | hmem
        · obtain ⟨rfl, rfl⟩ := Prod.mk.inj heq
          exact absurd rfl hne
        · simp [mset]
          exact .inr hmem
      · rcases List.mem_cons.mp h with heq | hmem
        · obtain ⟨rfl, rfl⟩ := Prod.mk.inj heq
          simp [mset, hk]
        · simp [mset, hk]
          exact .inr (ih hmem)

theorem mget_mset_self {β : Type} (l : List (UserId × β)) (k : UserId) (v : β) :
    mget (mset l k v) k = some v := by
  induction l with
  | nil => simp [mset, mget]
  | cons hd tl ih =>
      obtain ⟨k', v'⟩ := hd
      by_cases h : k' = k <;> simp [mset, mget, h, ih]

theorem mem_mset {β : Type} {l : List (UserId × β)} {k : UserId} {v : β} {p : UserId × β}
    (h : p ∈ mset l k v) : p ∈ l ∨ p = (k, v) := by
  induction l with
  | nil => simp [mset] at h; exact .inr h
  | cons hd tl ih =>
      obtain ⟨k', v'⟩ := hd
      by_cases hk : k' = k
      · subst hk
        simp [mset] at h
        rcases h with rfl | hmem
        · exact .inr rfl
        · exact .inl (.tail _ hmem)
      · simp [mset, hk] at h
        rcases h with rfl | hmem
        · exact .inl (.head _)
        · rcases ih hmem with h' | h'
          · exact .inl (.tail _ h')
          · exact .inr h'

theorem mset_eq_self {β : Type} {l : List (UserId × β)} {k : UserId} {v : β}
    (h : mget l k = some v) : mset l k v = l := by
  induction l with
  | nil => simp [mget] at h
  | cons hd tl ih =>
      obtain ⟨k', v'⟩ := hd
      by_cases hk : k' = k
      · subst hk
        simp [mget] at h
        subst h
        simp [mset]
      · simp [mget, hk] at h
        simp [mset, hk, ih h]

/-! ## Effect of `addReferral` on the storage state -/

theorem keys_updateUser (s : Storage) (id : UserId) (f : UserNode → UserNode) :
    (updateUser s id f).users.map (·.1) = s.users.map (·.1) := by
  unfold updateUser
  simp only [List.map_map]
  apply List.map_congr_left
  intro kv _
  by_cases h : kv.1 = id <;> simp [h]

theorem mget_map_val {β γ : Type} (l : List (UserId × β)) (g : UserId → β → γ) (u : UserId) :
    mget (l.map (fun kv => (kv.1, g kv.1 kv.2))) u = (mget l u).map (g u) := by
  induction l with
  | nil => simp [mget]
  | cons hd tl ih =>
      obtain ⟨k, v⟩ := hd
      by_cases hk : k = u
      · subst hk; simp [mget]
      · simp [mget, hk, ih]

theorem users_setReferrals (s : Storage) (rf : List (String × Referral)) :
    ({ s with referrals := rf } : Storage).users = s.users := rfl

theorem mget_updateUser (s : Storage) (id : UserId) (f : UserNode → UserNode) (u : UserId) :
    mget (updateUser s id f).users u =
      (mget s.users u).map (fun n => if u = id then f n else n) := by
  unfold updateUser
  have hmap : s.users.map (fun kv => if kv.1 = id then (kv.1, f kv.2) else kv)
      = s.users.map (fun kv => (kv.1, if kv.1 = id then f kv.2 else kv.2)) := by
    apply List.map_congr_left
    intro kv _
    by_cases h : kv.1 = id <;> simp [h]
  show mget (s.users.map (fun kv => if kv.1 = id then (kv.1, f kv.2) else kv)) u = _
  rw [hmap]
  exact mget_map_val s.users (fun k n => if k = id then f n else n) u

theorem mget_addUser (s : Storage) (id u : UserId) :
    mget (InMemoryStorage.addUser s id).users u =
      match mget s.users u with
      | some n => some n
      | none =>
          if u = id then some { userId := id, directReferrals := [], parent := none } else none := by
  unfold InMemoryStorage.addUser
  cases hid : mget s.users id with
  | some n =>
      cases hu : mget s.users u with
      | some m => simp [hu]
      | none =>
          have hne : u ≠ id := by rintro rfl; rw [hid] at hu; cases hu
          simp [hu, hne]
  | none =>
      show mget (s.users ++ [(id, _)]) u = _
      rw [mget_append]
      cases hu : mget s.users u with
      | some m => simp
      | none =>
          by_cases h : u = id
          · subst h; simp [mget]
          · simp [mget, Ne.symm h, h]

theorem keys_addUser (s : Storage) (id : UserId) :
    (InMemoryStorage.addUser s id).users.map (·.1) =
      if (mget s.users id).isSome then s.users.map (·.1) else s.users.map (·.1) ++ [id] := by
  unfold InMemoryStorage.addUser
  cases hid : mget s.users id <;> simp

theorem referrals_updateUser (s : Storage) (id : UserId) (f : UserNode → UserNode) :
    (updateUser s id f).referrals = s.referrals := rfl

theorem referrals_addUser (s : Storage) (id : UserId) :
    (InMemoryStorage.addUser s id).referrals = s.referrals := by
  unfold InMemoryStorage.addUser
  cases mget s.users id <;> rfl

theorem referrals_addReferral (s : Storage) (r c : UserId) :
    (InMemoryStorage.addReferral s r c).referrals =
      mset s.referrals (r ++ ":" ++ c) ⟨r, c⟩ := by
  have hstage : InMemoryStorage.addReferral s r c =
      updateUser
        (updateUser
          (InMemoryStorage.addUser
            (InMemoryStorage.addUser
              { s with referrals := mset s.referrals (r ++ ":" ++ c) ⟨r, c⟩ } r) c)
          r (fun n => if c ∈ n.directReferrals then n
                      else { n with directReferrals := n.directReferrals ++ [c] }))
        c (fun n => { n with parent := some r }) := rfl
  rw [hstage, referrals_updateUser, referrals_updateUser, referrals_addUser, referrals_addUser]

/-- Full description of the users map after `InMemoryStorage.addReferral`
with distinct endpoints. -/
theorem mget_addReferral (s : Storage) {r c : UserId} (hrc : r ≠ c) (u : UserId) :
    mget (InMemoryStorage.addReferral s r c).users u =
      match mget s.users u with
      | some n =>
          some { n with
            directReferrals :=
              if u = r then
                (if c ∈ n.directReferrals then n.directReferrals
                 else n.directReferrals ++ [c])
              else n.directReferrals,
            parent := if u = c then some r else n.parent }
      | none =>
          if u = r then some { userId := r, directReferrals := [c], parent := none }
          else if u = c then some { userId := c, directReferrals := [], parent := some r }
          else none := by
  have hstage : InMemoryStorage.addReferral s r c =
      updateUser
        (updateUser
          (InMemoryStorage.addUser
            (InMemoryStorage.addUser
              { s with referrals := mset s.referrals (r ++ ":" ++ c) ⟨r, c⟩ } r) c)
          r (fun n => if c ∈ n.directReferrals then n
                      else { n with directReferrals := n.directReferrals ++ [c] }))
        c (fun n => { n with parent := some r }) := rfl
  rw [hstage, mget_updateUser, mget_updateUser, mget_addUser, mget_addUser, users_setReferrals]
  cases hu : mget s.users u with
  | some n =>
      by_cases hur : u = r
      · subst hur
        have hcu : u ≠ c := hrc
        simp [hcu]
        by_cases hmem : c ∈ n.directReferrals <;> simp [hmem]
      · by_cases huc : u = c
        · subst huc
          simp [hur]
        · simp [hur, huc]
  | none =>
      by_cases hur : u = r
      · subst hur
        have hcu : u ≠ c := hrc
        simp [hcu]
      · by_cases huc : u = c
        · subst huc
          simp [hur]
        · simp [hur, huc]

/-- Parent field as stored in the users map (no empty-string filtering). -/
def rawParent (s : Storage) (u : UserId) : Option UserId :=
  match mget s.users u with
  | some n => n.parent
  | none => none

theorem children_addReferral (s : Storage) {r c : UserId} (hrc : r ≠ c) (u : UserId) :
    children (InMemoryStorage.addReferral s r c) u =
      if u = r then
        (if c ∈ children s r then children s r else children s r ++ [c])
      else children s u := by
  unfold children InMemoryStorage.getDirectReferrals
  rw [mget_addReferral s hrc u]
  cases hu : mget s.users u with
  | some n =>
      by_cases hur : u = r
      · subst hur
        simp [hu]
      · simp [hur, hu]
  | none =>
      by_cases hur : u = r
      · subst hur
        simp [hu]
      · by_cases huc : u = c <;> simp [hur, huc, hu, Ne.symm hrc]

theorem rawParent_addReferral (s : Storage) {r c : UserId} (hrc : r ≠ c) (u : UserId) :
    rawParent (InMemoryStorage.addReferral s r c) u =
      if u = c then some r else rawParent s u := by
  unfold rawParent
  rw [mget_addReferral s hrc u]
  cases hu : mget s.users u with
  | some n =>
      by_cases huc : u = c <;> by_cases hur : u = r <;> simp [hur, huc, hu]
  | none =>
      by_cases hur : u = r
      · subst hur
        have : u ≠ c := hrc
        simp [this, hu]
      · by_cases huc : u = c <;> simp [hur, huc, hu, Ne.symm hrc]

theorem edge_addReferral (s : Storage) {r c : UserId} (hrc : r ≠ c) {x y : UserId} :
    Edge (InMemoryStorage.addReferral s r c) x y ↔ Edge s x y ∨ (x = r ∧ y = c) := by
  unfold Edge
  rw [children_addReferral s hrc x]
  by_cases hxr : x = r
  · subst hxr
    by_cases hmem : c ∈ children s x
    · simp [hmem]
      rintro rfl
      exact hmem
    · simp [hmem]
  · simp [hxr]

/-- Pool of every id the BFS of `canReach` can ever enqueue: the user keys
together with every entry of a `directReferrals` list. -/
def allIdsF (s : Storage) : Finset String :=
  (s.users.map (·.1) ++ s.users.flatMap (fun kv => kv.2.directReferrals)).toFinset

theorem children_subset_allIdsF (s : Storage) {v x : UserId} (h : x ∈ children s v) :
    x ∈ allIdsF s := by
  unfold children InMemoryStorage.getDirectReferrals at h
  cases hv : mget s.users v with
  | none => rw [hv] at h; simp at h
  | some n =>
      rw [hv] at h
      have := mget_mem hv
      unfold allIdsF
      rw [List.mem_toFinset, List.mem_append]
      exact .inr (List.mem_flatMap.mpr ⟨(v, n), this, h⟩)

theorem allIdsF_card_le (s : Storage) : (allIdsF s).card ≤ s.users.length + totalChildren s := by
  unfold allIdsF
  calc (List.toFinset _).card ≤ _ := List.toFinset_card_le _
    _ = s.users.length + totalChildren s := by
        rw [List.length_append, List.length_map, List.length_flatMap]
        unfold totalChildren
        have hmc : List.map (List.length ∘ fun kv => kv.2.directReferrals) s.users
            = s.users.map (fun kv => kv.2.directReferrals.length) := by
          apply List.map_congr_left
          intro kv _
          rfl
        rw [hmc]

/-! ### Lemmas about the inner scan of `canReach` -/

theorem crScan_none_mem {tgt : UserId} :
    ∀ {cs vis acc}, crScan tgt cs vis acc = none → tgt ∈ cs := by
  intro cs
  induction cs with
  | nil => intro vis acc h; simp [crScan] at h
  | cons child cs ih =>
      intro vis acc h
      by_cases hc : child = tgt
      · exact hc ▸ List.mem_cons_self _ _
      · rw [crScan, if_neg hc] at h
        by_cases hv : child ∈ vis
        · rw [if_pos hv] at h
          exact List.mem_cons_of_mem _ (ih h)
        · rw [if_neg hv] at h
          exact List.mem_cons_of_mem _ (ih h)

theorem crScan_some_spec {tgt : UserId} :
    ∀ {cs vis acc vis' acc'}, crScan tgt cs vis acc = some (vis', acc') →
      (∀ x ∈ cs, x ≠ tgt) ∧
      (∀ x ∈ vis, x ∈ vis') ∧
      (∀ x ∈ cs, x ∈ vis') ∧
      (∀ x ∈ vis', x ∈ vis ∨ x ∈ acc') ∧
      (∀ x ∈ acc', x ∈ acc ∨ x ∈ cs) ∧
      (∀ x ∈ acc, x ∈ acc') := by
  intro cs
  induction cs with
  | nil =>
      intro vis acc vis' acc' h
      simp [crScan] at h
      obtain ⟨rfl, rfl⟩ := h
      exact ⟨by simp, fun x hx => hx, by simp, fun x hx => .inl hx, fun x hx => .inl hx, fun x hx => hx⟩
  | cons child cs ih =>
      intro vis acc vis' acc' h
      by_cases hc : child = tgt
      · rw [crScan, if_pos hc] at h; cases h
      · rw [crScan, if_neg hc] at h
        by_cases hv : child ∈ vis
        · rw [if_pos hv] at h
          obtain ⟨h1, h2, h3, h4, h5, h6⟩ := ih h
          refine ⟨?_, h2, ?_, h4, ?_, h6⟩
          · intro x hx
            rcases List.mem_cons.mp hx with rfl | hx
            · exact hc
            · exact h1 x hx
          · intro x hx
            rcases List.mem_cons.mp hx with rfl | hx
            · exact h2 _ hv
            · exact h3 x hx
          · intro x hx
            rcases h5 x hx with h' | h'
            · exact .inl h'
            · exact .inr (List.mem_cons_of_mem _ h')
        · rw [if_neg hv] at h
          obtain ⟨h1, h2, h3, h4, h5, h6⟩ := ih h
          refine ⟨?_, fun x hx => h2 _ (List.mem_cons_of_mem _ hx), ?_, ?_, ?_, ?_⟩
          · intro x hx
            rcases List.mem_cons.mp hx with rfl | hx
            · exact hc
            · exact h1 x hx
          · intro x hx
            rcases List.mem_cons.mp hx with rfl | hx
            · exact h2 _ (List.mem_cons_self _ _)
            · exact h3 x hx
          · intro x hx
            rcases h4 x hx with h' | h'
            · rcases List.mem_cons.mp h' with rfl | h''
              · exact .inr (h6 _ (List.mem_append_right _ (List.mem_singleton.mpr rfl)))
              · exact .inl h''
            · exact .inr h'
          · intro x hx
            rcases h5 x hx with h' | h'
            · rcases List.mem_append.mp h' with h'' | h''
              · exact .inl h''
              · rw [List.mem_singleton] at h''
                exact .inr (h'' ▸ List.mem_cons_self _ _)
            · exact .inr (List.mem_cons_of_mem _ h')
          · intro x hx
            exact h6 _ (List.mem_append_left _ hx)

theorem crScan_measure {tgt : UserId} (F : Finset String) :
    ∀ {cs vis acc vis' acc'}, crScan tgt cs vis acc = some (vis', acc') →
      (∀ x ∈ cs, x ∈ F) →
      acc'.length + (F \ vis'.toFinset).card = acc.length + (F \ vis.toFinset).card := by
  intro cs
  induction cs with
  | nil =>
      intro vis acc vis' acc' h _
      simp [crScan] at h
      obtain ⟨rfl, rfl⟩ := h
      rfl
  | cons child cs ih =>
      intro vis acc vis' acc' h hF
      by_cases hc : child = tgt
      · rw [crScan, if_pos hc] at h; cases h
      · rw [crScan, if_neg hc] at h
        by_cases hv : child ∈ vis
        · rw [if_pos hv] at h
          exact ih h (fun x hx => hF x (List.mem_cons_of_mem _ hx))
        · rw [if_neg hv] at h
          have step := ih h (fun x hx => hF x (List.mem_cons_of_mem _ hx))
          rw [step]
          have hchild : child ∈ F \ vis.toFinset := by
            rw [Finset.mem_sdiff, List.mem_toFinset]
            exact ⟨hF child (List.mem_cons_self _ _), hv⟩
          have : F \ (child :: vis).toFinset = (F \ vis.toFinset).erase child := by
            ext x
            simp [Finset.mem_sdiff, Finset.mem_erase, List.mem_toFinset]
            tauto
          rw [this, Finset.card_erase_of_mem hchild, List.length_append, List.length_singleton]
          have hpos : 0 < (F \ vis.toFinset).card := Finset.card_pos.mpr ⟨child, hchild⟩
          omega

/-! ### Soundness and completeness of `canReach` -/

theorem children_eq_of_mget (s : Storage) {cur : UserId} {node : UserNode}
    (h : mget s.users cur = some node) : children s cur = node.directReferrals := by
  unfold children InMemoryStorage.getDirectReferrals
  rw [h]

theorem canReachAux_sound (s : Storage) (tgt a : UserId) :
    ∀ (fuel : Nat) (vis queue : List UserId),
      (∀ q ∈ queue, Reach s a q) →
      canReachAux s tgt fuel vis queue = true → Reach s a tgt := by
  intro fuel
  induction fuel with
  | zero => intro vis queue _ h; simp [canReachAux] at h
  | succ F ih =>
      intro vis queue hq h
      match queue with
      | [] => simp [canReachAux] at h
      | cur :: rest =>
          rw [canReachAux] at h
          cases hcur : mget s.users cur with
          | none =>
              simp only [hcur] at h
              exact ih vis rest (fun q hq' => hq q (List.mem_cons_of_mem _ hq')) h
          | some node =>
              simp only [hcur] at h
              cases hscan : crScan tgt node.directReferrals vis [] with
              | none =>
                  have htgt : tgt ∈ node.directReferrals := crScan_none_mem hscan
                  have : Edge s cur tgt := by
                    unfold Edge
                    rw [children_eq_of_mget s hcur]
                    exact htgt
                  exact (hq cur (List.mem_cons_self _ _)).tail this
              | some p =>
                  obtain ⟨vis', adds⟩ := p
                  rw [hscan] at h
                  refine ih vis' (rest ++ adds) ?_ h
                  intro q hq'
                  rcases List.mem_append.mp hq' with h' | h'
                  · exact hq q (List.mem_cons_of_mem _ h')
                  · have : q ∈ node.directReferrals := by
                      rcases (crScan_some_spec hscan).2.2.2.2.1 q h' with h'' | h''
                      · simp at h''
                      · exact h''
                    have he : Edge s cur q := by
                      unfold Edge
                      rw [children_eq_of_mget s hcur]
                      exact this
                    exact (hq cur (List.mem_cons_self _ _)).tail he

theorem closed_reach_mem (s : Storage) (vis : List UserId)
    (Hcl : ∀ v ∈ vis, ∀ x ∈ children s v, x ∈ vis) :
    ∀ {v w : UserId}, Reach s v w → v ∈ vis → w ∈ vis := by
  intro v w hr
  induction hr with
  | refl => exact id
  | @step a b c e hr ih => exact fun ha => ih (Hcl a ha b e)

theorem canReachAux_complete (s : Storage) (tgt : UserId) :
    ∀ (fuel : Nat) (vis queue : List UserId),
      canReachAux s tgt fuel vis queue = false →
      queue.length + ((allIdsF s) \ vis.toFinset).card < fuel →
      (∀ q ∈ queue, q ∈ vis) →
      (∀ v ∈ vis, v ∉ queue → ∀ x ∈ children s v, x ∈ vis ∧ x ≠ tgt) →
      tgt ∉ vis →
      ∀ v ∈ vis, ¬ Reach s v tgt := by
  intro fuel
  induction fuel with
  | zero => intro vis queue _ hm _ _ _; omega
  | succ F ih =>
      intro vis queue h hm Hsub Hcl Htgt
      match queue with
      | [] =>
          have Hcl' : ∀ v ∈ vis, ∀ x ∈ children s v, x ∈ vis := by
            intro v hv x hx
            exact (Hcl v hv (by simp) x hx).1
          intro v hv hr
          exact Htgt (closed_reach_mem s vis Hcl' hr hv)
      | cur :: rest =>
          rw [canReachAux] at h
          cases hcur : mget s.users cur with
          | none =>
              simp only [hcur] at h
              have hch : children s cur = [] := by
                unfold children InMemoryStorage.getDirectReferrals
                rw [hcur]
              refine ih vis rest h ?_ ?_ ?_ Htgt
              · simp at hm ⊢
                omega
              · exact fun q hq => Hsub q (List.mem_cons_of_mem _ hq)
              · intro v hv hnq x hx
                by_cases hvc : v = cur
                · subst hvc
                  rw [hch] at hx
                  cases hx
                · exact Hcl v hv (by simp [hvc, hnq]) x hx
          | some node =>
              simp only [hcur] at h
              cases hscan : crScan tgt node.directReferrals vis [] with
              | none => rw [hscan] at h; cases h
              | some p =>
                  obtain ⟨vis', adds⟩ := p
                  rw [hscan] at h
                  obtain ⟨hnt, hvmono, hcs, hvsub, hadds, -⟩ := crScan_some_spec hscan
                  have hch : children s cur = node.directReferrals := children_eq_of_mget s hcur
                  have hmeas : adds.length + ((allIdsF s) \ vis'.toFinset).card =
                      ((allIdsF s) \ vis.toFinset).card := by
                    have := crScan_measure (allIdsF s) hscan
                      (fun x hx => children_subset_allIdsF s (hch ▸ hx))
                    simpa using this
                  have hconc : ∀ v ∈ vis, ¬ Reach s v tgt := by
                    have hres := ih vis' (rest ++ adds) h ?_ ?_ ?_ ?_
                    · exact fun v hv => hres v (hvmono v hv)
                    · rw [List.length_append]
                      simp at hm
                      omega
                    · intro q hq
                      rcases List.mem_append.mp hq with h' | h'
                      · exact hvmono q (Hsub q (List.mem_cons_of_mem _ h'))
                      · rcases hadds q h' with h'' | h''
                        · cases h''
                        · exact hcs q h''
                    · intro v hv hnq x hx
                      rcases hvsub v hv with hvold | hvadds
                      · by_cases hvc : v = cur
                        · subst hvc
                          rw [hch] at hx
                          exact ⟨hcs x hx, hnt x hx⟩
                        · have : v ∉ cur :: rest := by
                            intro hmem
                            rcases List.mem_cons.mp hmem with rfl | hmem'
                            · exact hvc rfl
                            · exact hnq (List.mem_append_left _ hmem')
                          obtain ⟨h1, h2⟩ := Hcl v hvold this x hx
                          exact ⟨hvmono x h1, h2⟩
                      · exact absurd (List.mem_append_right _ hvadds) hnq
                    · intro hvt
                      rcases hvsub tgt hvt with h' | h'
                      · exact Htgt h'
                      · rcases hadds tgt h' with h'' | h''
                        · cases h''
                        · exact hnt tgt h'' rfl
                  exact hconc

theorem canReach_eq_false_iff_not_reach (s : Storage) (a b : UserId) :
    InMemoryStorage.canReach s a b = false → ¬ Reach s a b := by
  intro h
  unfold InMemoryStorage.canReach at h
  by_cases hab : a = b
  · rw [if_pos hab] at h
    cases h
  · rw [if_neg hab] at h
    refine canReachAux_complete s b _ [a] [a] h ?_ ?_ ?_ ?_ a (by simp)
    · have := allIdsF_card_le s
      have hle : ((allIdsF s) \ [a].toFinset).card ≤ (allIdsF s).card :=
        Finset.card_le_card (Finset.sdiff_subset)
      simp only [List.length_singleton]
      omega
    · simp
    · intro v hv hnq
      simp at hv hnq
      exact absurd hv hnq
    · simp
      exact fun h' => hab h'.symm

theorem canReach_eq_true_reach (s : Storage) {a b : UserId}
    (h : InMemoryStorage.canReach s a b = true) : Reach s a b := by
  unfold InMemoryStorage.canReach at h
  by_cases hab : a = b
  · subst hab
    exact .refl a
  · rw [if_neg hab] at h
    exact canReachAux_sound s b a _ [a] [a] (by simp [Reach.refl]) h

theorem canReach_iff (s : Storage) (a b : UserId) :
    InMemoryStorage.canReach s a b = true ↔ Reach s a b := by
  constructor
  · exact canReach_eq_true_reach s
  · intro hr
    by_contra hfalse
    rw [Bool.not_eq_true] at hfalse
    exact canReach_eq_false_iff_not_reach s a b hfalse hr

/-! ## Well-formedness invariants of reachable states -/

/-- Description of the users map after `InMemoryStorage.addReferral` for
arbitrary endpoints (including the self-edge case `r = c`). -/
theorem mget_addReferral_gen (s : Storage) (r c u : UserId) :
    mget (InMemoryStorage.addReferral s r c).users u =
      match mget s.users u with
      | some n =>
          some { n with
            directReferrals :=
              if u = r then
                (if c ∈ n.directReferrals then n.directReferrals
                 else n.directReferrals ++ [c])
              else n.directReferrals,
            parent := if u = c then some r else n.parent }
      | none =>
          if u = r then
            some { userId := r, directReferrals := [c],
                   parent := if u = c then some r else none }
          else if u = c then some { userId := c, directReferrals := [], parent := some r }
          else none := by
  have hstage : InMemoryStorage.addReferral s r c =
      updateUser
        (updateUser
          (InMemoryStorage.addUser
            (InMemoryStorage.addUser
              { s with referrals := mset s.referrals (r ++ ":" ++ c) ⟨r, c⟩ } r) c)
          r (fun n => if c ∈ n.directReferrals then n
                      else { n with directReferrals := n.directReferrals ++ [c] }))
        c (fun n => { n with parent := some r }) := rfl
  rw [hstage, mget_updateUser, mget_updateUser, mget_addUser, mget_addUser, users_setReferrals]
  cases hu : mget s.users u with
  | some n =>
      by_cases hur : u = r
      · subst hur
        by_cases huc : u = c
        · subst huc
          simp
          by_cases hmem : u ∈ n.directReferrals <;> simp [hmem]
        · simp [huc, Ne.symm huc]
          by_cases hmem : c ∈ n.directReferrals <;> simp [hmem]
      · by_cases huc : u = c
        · subst huc
          simp [hur, Ne.symm hur]
        · simp [hur, huc]
  | none =>
      by_cases hur : u = r
      · subst hur
        by_cases huc : u = c
        · subst huc
          simp
        · simp [huc, Ne.symm huc]
      · by_cases huc : u = c
        · subst huc
          simp [hur, Ne.symm hur]
        · simp [hur, huc]

theorem mget_addReferral_mono (s : Storage) (r c u : UserId) {n : UserNode}
    (h : mget s.users u = some n) :
    mget (InMemoryStorage.addReferral s r c).users u =
      some { n with
        directReferrals :=
          if u = r then
            (if c ∈ n.directReferrals then n.directReferrals
             else n.directReferrals ++ [c])
          else n.directReferrals,
        parent := if u = c then some r else n.parent } := by
  rw [mget_addReferral_gen, h]

theorem children_addReferral_gen (s : Storage) (r c u : UserId) :
    children (InMemoryStorage.addReferral s r c) u =
      if u = r then
        (if c ∈ children s r then children s r else children s r ++ [c])
      else children s u := by
  unfold children InMemoryStorage.getDirectReferrals
  rw [mget_addReferral_gen]
  cases hu : mget s.users u with
  | some n =>
      by_cases hur : u = r
      · subst hur
        simp [hu]
      · simp [hur, hu]
  | none =>
      by_cases hur : u = r
      · subst hur
        simp [hu]
      · by_cases huc : u = c
        · have hcr : c ≠ r := by
            rw [← huc]
            exact hur
          simp [hur, huc, hu, hcr]
        · simp [hur, huc, hu]

theorem children_addReferral_sub (s : Storage) (r c u : UserId) :
    ∀ x ∈ children (InMemoryStorage.addReferral s r c) u, x ∈ children s u ∨ x = c := by
  intro x hx
  rw [children_addReferral_gen] at hx
  by_cases hur : u = r
  · rw [if_pos hur] at hx
    by_cases hmem : c ∈ children s r
    · rw [if_pos hmem] at hx
      exact .inl (hur ▸ hx)
    · rw [if_neg hmem] at hx
      rcases List.mem_append.mp hx with h' | h'
      · exact .inl (hur ▸ h')
      · exact .inr (List.mem_singleton.mp h')
  · rw [if_neg hur] at hx
    exact .inl hx

theorem edge_mono (s : Storage) (r c : UserId) {x y : UserId} (h : Edge s x y) :
    Edge (InMemoryStorage.addReferral s r c) x y := by
  unfold Edge at h ⊢
  rw [children_addReferral_gen]
  by_cases hxr : x = r
  · subst hxr
    by_cases hmem : c ∈ children s x
    · simp [hmem]
      exact h
    · simp [hmem]
      exact .inl h
  · simp [hxr]
    exact h

theorem edge_addReferral_new (s : Storage) (r c : UserId) :
    Edge (InMemoryStorage.addReferral s r c) r c := by
  unfold Edge
  rw [children_addReferral_gen]
  by_cases hmem : c ∈ children s r <;> simp [hmem]

theorem keys_addUser_nodup (s : Storage) (id : UserId)
    (h : (s.users.map (·.1)).Nodup) :
    ((InMemoryStorage.addUser s id).users.map (·.1)).Nodup := by
  rw [keys_addUser]
  cases hid : (mget s.users id).isSome
  · rw [if_neg (by simp [hid])]
    have : id ∉ s.users.map (·.1) := by
      intro hmem
      rw [← mget_isSome_iff_mem_keys] at hmem
      rw [hid] at hmem
      cases hmem
    simp [List.nodup_append, h, this]
  · rw [if_pos (by simp [hid])]
    exact h

theorem keysNodup_addReferral (s : Storage) (r c : UserId)
    (h : (s.users.map (·.1)).Nodup) :
    ((InMemoryStorage.addReferral s r c).users.map (·.1)).Nodup := by
  have hstage : InMemoryStorage.addReferral s r c =
      updateUser
        (updateUser
          (InMemoryStorage.addUser
            (InMemoryStorage.addUser
              { s with referrals := mset s.referrals (r ++ ":" ++ c) ⟨r, c⟩ } r) c)
          r (fun n => if c ∈ n.directReferrals then n
                      else { n with directReferrals := n.directReferrals ++ [c] }))
        c (fun n => { n with parent := some r }) := rfl
  rw [hstage, keys_updateUser, keys_updateUser]
  exact keys_addUser_nodup _ c (keys_addUser_nodup _ r h)

theorem mget_addReferral_isSome_c (s : Storage) (r c : UserId) :
    (mget (InMemoryStorage.addReferral s r c).users c).isSome := by
  rw [mget_addReferral_gen]
  cases mget s.users c with
  | some n => simp
  | none => by_cases h : c = r <;> simp [h]

theorem mget_addReferral_isSome_mono (s : Storage) (r c u : UserId)
    (h : (mget s.users u).isSome) :
    (mget (InMemoryStorage.addReferral s r c).users u).isSome := by
  rw [mget_addReferral_gen]
  cases hu : mget s.users u with
  | some n => simp
  | none => rw [hu] at h; cases h

theorem mset_keys_nodup {β : Type} (l : List (UserId × β)) (k : UserId) (v : β)
    (h : (l.map (·.1)).Nodup) : ((mset l k v).map (·.1)).Nodup := by
  rw [mset_keys]
  by_cases hk : k ∈ l.map (·.1)
  · rw [if_pos hk]
    exact h
  · rw [if_neg hk]
    simp [List.nodup_append, h, hk]

/-- Well-formedness facts holding in every state the network can reach,
under any configuration. -/
structure WFAny (s : Storage) : Prop where
  keysNodup : (s.users.map (·.1)).Nodup
  refKeysNodup : (s.referrals.map (·.1)).Nodup
  userIdEq : ∀ u n, mget s.users u = some n → n.userId = u
  validIds : ∀ u n, mget s.users u = some n → isValidUserId u = true
  childNodup : ∀ u n, mget s.users u = some n → n.directReferrals.Nodup
  childUsers : ∀ u x, x ∈ children s u → (mget s.users x).isSome
  parentValid : ∀ u n p, mget s.users u = some n → n.parent = some p → isValidUserId p = true
  keyMatches : ∀ kv ∈ s.referrals, kv.1 = kv.2.referrer ++ ":" ++ kv.2.candidate
  recSub : ∀ kv ∈ s.referrals, Edge s kv.2.referrer kv.2.candidate

/-- Additional facts holding in every state reachable under the default
configuration: parent pointers record the unique referrer, and the graph is
acyclic. -/
structure WFDefault (s : Storage) extends WFAny s : Prop where
  parentEdge : ∀ r c, Edge s r c → rawParent s c = some r
  acyclic : Acyclic s

theorem children_mem_of_mget (s : Storage) {u x : UserId} (hx : x ∈ children s u) :
    ∃ n, mget s.users u = some n ∧ x ∈ n.directReferrals := by
  unfold children InMemoryStorage.getDirectReferrals at hx
  cases hu : mget s.users u with
  | none => rw [hu] at hx; cases hx
  | some n =>
      rw [hu] at hx
      exact ⟨n, rfl, hx⟩

theorem WFAny_storageAdd {s : Storage} (h : WFAny s) {r c : UserId}
    (hvr : isValidUserId r = true) (hvc : isValidUserId c = true) :
    WFAny (InMemoryStorage.addReferral s r c) := by
  constructor
  · exact keysNodup_addReferral s r c h.keysNodup
  · rw [referrals_addReferral]
    exact mset_keys_nodup _ _ _ h.refKeysNodup
  · intro u n hn
    rw [mget_addReferral_gen] at hn
    cases hu : mget s.users u with
    | some m =>
        rw [hu] at hn
        simp at hn
        rw [← hn]
        exact h.userIdEq u m hu
    | none =>
        rw [hu] at hn
        by_cases hur : u = r
        · rw [if_pos hur] at hn
          simp at hn
          rw [← hn, hur]
        · rw [if_neg hur] at hn
          by_cases huc : u = c
          · rw [if_pos huc] at hn
            simp at hn
            rw [← hn, huc]
          · rw [if_neg huc] at hn
            cases hn
  · intro u n hn
    rw [mget_addReferral_gen] at hn
    cases hu : mget s.users u with
    | some m =>
        rw [hu] at hn
        exact h.validIds u m hu
    | none =>
        rw [hu] at hn
        by_cases hur : u = r
        · rw [if_pos hur] at hn
          exact hur ▸ hvr
        · rw [if_neg hur] at hn
          by_cases huc : u = c
          · exact huc ▸ hvc
          · rw [if_neg huc] at hn
            cases hn
  · intro u n hn
    rw [mget_addReferral_gen] at hn
    cases hu : mget s.users u with
    | some m =>
        rw [hu] at hn
        simp at hn
        rw [← hn]
        simp only []
        by_cases hur : u = r
        · rw [if_pos hur]
          by_cases hmem : c ∈ m.directReferrals
          · rw [if_pos hmem]
            exact h.childNodup u m hu
          · rw [if_neg hmem]
            simp [List.nodup_append, h.childNodup u m hu, hmem]
        · rw [if_neg hur]
          exact h.childNodup u m hu
    | none =>
        rw [hu] at hn
        by_cases hur : u = r
        · rw [if_pos hur] at hn
          simp at hn
          rw [← hn]
          simp
        · rw [if_neg hur] at hn
          by_cases huc : u = c
          · rw [if_pos huc] at hn
            simp at hn
            rw [← hn]
            simp
          · rw [if_neg huc] at hn
            cases hn
  · intro u x hx
    rcases children_addReferral_sub s r c u x hx with hold | hxc
    · exact mget_addReferral_isSome_mono s r c x (h.childUsers u x hold)
    · subst hxc
      exact mget_addReferral_isSome_c s r _
  · intro u n p hn hp
    rw [mget_addReferral_gen] at hn
    cases hu : mget s.users u with
    | some m =>
        rw [hu] at hn
        simp at hn
        rw [← hn] at hp
        simp only [] at hp
        by_cases huc : u = c
        · rw [if_pos huc] at hp
          cases hp
          exact hvr
        · rw [if_neg huc] at hp
          exact h.parentValid u m p hu hp
    | none =>
        rw [hu] at hn
        by_cases hur : u = r
        · rw [if_pos hur] at hn
          simp at hn
          rw [← hn] at hp
          simp only [] at hp
          by_cases huc : u = c
          · rw [if_pos huc] at hp
            cases hp
            exact hvr
          · rw [if_neg huc] at hp
            cases hp
        · rw [if_neg hur] at hn
          by_cases huc : u = c
          · rw [if_pos huc] at hn
            simp at hn
            rw [← hn] at hp
            simp only [] at hp
            cases hp
            exact hvr
          · rw [if_neg huc] at hn
            cases hn
  · intro kv hkv
    rw [referrals_addReferral] at hkv
    rcases mem_mset hkv with hold | rfl
    · exact h.keyMatches kv hold
    · rfl
  · intro kv hkv
    rw [referrals_addReferral] at hkv
    rcases mem_mset hkv with hold | rfl
    · exact edge_mono s r c (h.recSub kv hold)
    · exact edge_addReferral_new s r c

theorem WFAny_netStep (cfg : Config) (s : Storage) (r c : UserId) (h : WFAny s) :
    WFAny (ReferralNetwork.addReferral cfg s r c).2 := by
  unfold ReferralNetwork.addReferral
  cases hvr : isValidUserId r with
  | false => simp [hvr]; exact h
  | true =>
      cases hvc : isValidUserId c with
      | false => simp [hvr, hvc]; exact h
      | true =>
          simp only [hvr, hvc, Bool.not_true, Bool.false_eq_true, if_false]
          cases hval : validateReferralConstraints cfg s r c with
          | some e => exact h
          | none => exact WFAny_storageAdd h hvr hvc

theorem WFAny_empty : WFAny Storage.empty := by
  refine ⟨?_, ?_, ?_, ?_, ?_, ?_, ?_, ?_, ?_⟩
  · simp [Storage.empty]
  · simp [Storage.empty]
  · intro u n hn
    cases hn
  · intro u n hn
    cases hn
  · intro u n hn
    cases hn
  · intro u x hx
    unfold children InMemoryStorage.getDirectReferrals at hx
    simp [Storage.empty, mget] at hx
  · intro u n p hn _
    cases hn
  · intro kv hkv
    simp [Storage.empty] at hkv
  · intro kv hkv
    simp [Storage.empty] at hkv

theorem WFAny_of_reachableAny {s : Storage} (h : ReachableAny s) : WFAny s := by
  induction h with
  | empty => exact WFAny_empty
  | step cfg r c _ _ ih => exact WFAny_netStep cfg _ r c ih

/-! ### Preservation of the default-configuration invariant -/

theorem reach_addReferral_decomp {s : Storage} {r c : UserId} (hrc : r ≠ c)
    (hnc : ¬ Reach s c r) {a b : UserId}
    (h : Reach (InMemoryStorage.addReferral s r c) a b) :
    Reach s a b ∨ (Reach s a r ∧ Reach s c b) := by
  induction h with
  | refl => exact .inl (.refl _)
  | @step x y z e _ ih =>
      rcases (edge_addReferral s hrc).mp e with eold | ⟨rfl, rfl⟩
      · rcases ih with h' | ⟨h1, h2⟩
        · exact .inl (.step eold h')
        · exact .inr ⟨.step eold h1, h2⟩
      · rcases ih with h' | ⟨h1, h2⟩
        · exact .inr ⟨.refl _, h'⟩
        · exact absurd h1 hnc

theorem acyclic_addReferral {s : Storage} {r c : UserId} (hrc : r ≠ c)
    (hnc : ¬ Reach s c r) (hac : Acyclic s) :
    Acyclic (InMemoryStorage.addReferral s r c) := by
  intro u ⟨m, e, hm⟩
  rcases (edge_addReferral s hrc).mp e with eold | ⟨rfl, rfl⟩
  · rcases reach_addReferral_decomp hrc hnc hm with h' | ⟨h1, h2⟩
    · exact hac u ⟨m, eold, h'⟩
    · exact hnc ((h2.tail eold).trans h1)
  · rcases reach_addReferral_decomp hrc hnc hm with h' | ⟨h1, h2⟩
    · exact hnc h'
    · exact hnc h1

theorem rawParent_eq_getParent {s : Storage} (h : WFAny s) (u : UserId) :
    InMemoryStorage.getParent s u = rawParent s u := by
  unfold InMemoryStorage.getParent rawParent
  cases hu : mget s.users u with
  | none => simp
  | some n =>
      cases hp : n.parent with
      | none => simp [hp]
      | some p =>
          have hv := h.parentValid u n p hu hp
          have hne : p ≠ "" := by
            intro hempty
            rw [hempty] at hv
            cases hv
          simp [hp, hne]

/-- Facts extracted from a passing default-configuration validation. -/
theorem default_success_facts {s : Storage} {r c : UserId}
    (h : validateReferralConstraints Config.default s r c = none) :
    r ≠ c ∧
    (InMemoryStorage.getParent s c = none ∨ InMemoryStorage.getParent s c = some r) ∧
    InMemoryStorage.canReach s c r = false := by
  unfold validateReferralConstraints at h
  have h1 : selfCheckFails Config.default r c = false := by
    cases h1 : selfCheckFails Config.default r c with
    | false => rfl
    | true => rw [h1] at h; simp at h
  rw [h1] at h
  simp only [Bool.false_eq_true, if_false] at h
  have h2 : multiCheckFails Config.default s r c = false := by
    cases h2 : multiCheckFails Config.default s r c with
    | false => rfl
    | true => rw [h2] at h; simp at h
  rw [h2] at h
  simp only [Bool.false_eq_true, if_false] at h
  have h3 : cycleCheckFails Config.default s r c = false := by
    cases h3 : cycleCheckFails Config.default s r c with
    | false => rfl
    | true => rw [h3] at h; simp at h
  refine ⟨?_, ?_, ?_⟩
  · unfold selfCheckFails at h1
    simp [Config.default] at h1
    exact h1
  · unfold multiCheckFails at h2
    simp only [Config.default, Bool.not_false, Bool.true_and] at h2
    cases hp : InMemoryStorage.getParent s c with
    | none => exact .inl rfl
    | some p =>
        rw [hp] at h2
        simp at h2
        exact .inr (by rw [h2])
  · unfold cycleCheckFails InMemoryStorage.wouldCreateCycle at h3
    simp only [Config.default, Bool.not_false, Bool.true_and] at h3
    exact h3

theorem WFDefault_storageAdd {s : Storage} (h : WFDefault s) {r c : UserId}
    (hvr : isValidUserId r = true) (hvc : isValidUserId c = true)
    (hrc : r ≠ c)
    (hpar : rawParent s c = none ∨ rawParent s c = some r)
    (hnc : ¬ Reach s c r) :
    WFDefault (InMemoryStorage.addReferral s r c) := by
  refine ⟨WFAny_storageAdd h.toWFAny hvr hvc, ?_, acyclic_addReferral hrc hnc h.acyclic⟩
  intro x y he
  rw [rawParent_addReferral s hrc y]
  rcases (edge_addReferral s hrc).mp he with eold | ⟨rfl, rfl⟩
  · by_cases hyc : y = c
    · subst hyc
      have := h.parentEdge x y eold
      rcases hpar with hp | hp
      · rw [this] at hp
        cases hp
      · rw [this] at hp
        rw [if_pos rfl]
        exact hp.symm ▸ rfl
    · rw [if_neg hyc]
      exact h.parentEdge x y eold
  · rw [if_pos rfl]

theorem WFDefault_netStep (s : Storage) (r c : UserId) (h : WFDefault s) :
    WFDefault (ReferralNetwork.addReferral Config.default s r c).2 := by
  unfold ReferralNetwork.addReferral
  cases hvr : isValidUserId r with
  | false => simp [hvr]; exact h
  | true =>
      cases hvc : isValidUserId c with
      | false => simp [hvr, hvc]; exact h
      | true =>
          simp only [hvr, hvc, Bool.not_true, Bool.false_eq_true, if_false]
          cases hval : validateReferralConstraints Config.default s r c with
          | some e => exact h
          | none =>
              obtain ⟨hrc, hpar, hcr⟩ := default_success_facts hval
              rw [rawParent_eq_getParent h.toWFAny c] at hpar
              exact WFDefault_storageAdd h hvr hvc hrc hpar
                (canReach_eq_false_iff_not_reach s c r hcr)

theorem WFDefault_empty : WFDefault Storage.empty := by
  refine ⟨WFAny_empty, ?_, ?_⟩
  · intro x y he
    unfold Edge children InMemoryStorage.getDirectReferrals at he
    simp [Storage.empty, mget] at he
  · intro u ⟨m, e, _⟩
    unfold Edge children InMemoryStorage.getDirectReferrals at e
    simp [Storage.empty, mget] at e

theorem WFDefault_of_reachableDefault {s : Storage} (h : ReachableDefault s) : WFDefault s := by
  induction h with
  | empty => exact WFDefault_empty
  | step cfg r c hcfg _ ih =>
      subst hcfg
      exact WFDefault_netStep _ r c ih

/-! ## Chains and the forest property -/

/-- Consecutive-edge chains over an arbitrary edge relation. -/
def IsChainRel (E : UserId → UserId → Prop) : List UserId → Prop
  | [] => True
  | [_] => True
  | a :: b :: rest => E a b ∧ IsChainRel E (b :: rest)

/-- Chains over the structural child edges of a storage state. -/
def EdgeChain (s : Storage) : List UserId → Prop :=
  IsChainRel (Edge s)

instance (s : Storage) (l : List UserId) : Decidable (EdgeChain s l) := by
  unfold EdgeChain
  induction l with
  | nil => unfold IsChainRel; infer_instance
  | cons a l ih =>
      cases l with
      | nil => unfold IsChainRel; infer_instance
      | cons b rest =>
          unfold IsChainRel
          exact @instDecidableAnd _ _ _ ih

/-- Edge set recorded in the referrals map. -/
def RecordedEdge (s : Storage) (r c : UserId) : Prop :=
  ∃ kv ∈ s.referrals, kv.2 = ⟨r, c⟩

theorem chainRel_mono {E F : UserId → UserId → Prop} (hEF : ∀ a b, E a b → F a b) :
    ∀ l, IsChainRel E l → IsChainRel F l := by
  intro l
  induction l with
  | nil => intro h; exact h
  | cons a l ih =>
      cases l with
      | nil => intro h; exact h
      | cons b rest =>
          intro h
          exact ⟨hEF a b h.1, ih h.2⟩

theorem chain_head_reachPos_last (s : Storage) :
    ∀ (l : List UserId) (a b : UserId), IsChainRel (Edge s) (a :: (l ++ [b])) → ReachPos s a b := by
  intro l
  induction l with
  | nil =>
      intro a b h
      exact ⟨b, h.1, .refl b⟩
  | cons x l ih =>
      intro a b h
      obtain ⟨m, e, hm⟩ := ih x b h.2
      exact ⟨x, h.1, .step e hm⟩

theorem recordedEdge_sub_edge {s : Storage} (h : WFAny s) {r c : UserId}
    (hrec : RecordedEdge s r c) : Edge s r c := by
  obtain ⟨kv, hkv, hval⟩ := hrec
  have := h.recSub kv hkv
  rw [hval] at this
  exact this

theorem edge_inDegree_le_one {s : Storage} (h : WFDefault s) {c r₁ r₂ : UserId}
    (h₁ : Edge s r₁ c) (h₂ : Edge s r₂ c) : r₁ = r₂ := by
  have e₁ := h.parentEdge r₁ c h₁
  have e₂ := h.parentEdge r₂ c h₂
  rw [e₁] at e₂
  exact Option.some.inj e₂

/-- Claim C1 — forest invariant: with the default configuration, every
state reachable from the empty store by `addReferral` calls has an edge set
that is a forest: the recorded referral relationships (and likewise the
structural child edges) contain no directed cycle, and every user is the
candidate of at most one edge. -/
theorem forest_invariant (s : Storage) (h : ReachableDefault s) :
    (∀ (x : UserId) (l : List UserId), ¬ IsChainRel (RecordedEdge s) (x :: (l ++ [x]))) ∧
    (∀ c r₁ r₂, RecordedEdge s r₁ c → RecordedEdge s r₂ c → r₁ = r₂) ∧
    (∀ (x : UserId) (l : List UserId), ¬ IsChainRel (Edge s) (x :: (l ++ [x]))) ∧
    (∀ c r₁ r₂, Edge s r₁ c → Edge s r₂ c → r₁ = r₂) := by
  have hwf := WFDefault_of_reachableDefault h
  have hstruct : ∀ (x : UserId) (l : List UserId), ¬ IsChainRel (Edge s) (x :: (l ++ [x])) := by
    intro x l hchain
    exact hwf.acyclic x (chain_head_reachPos_last s l x x hchain)
  refine ⟨?_, ?_, hstruct, fun c r₁ r₂ => edge_inDegree_le_one hwf⟩
  · intro x l hchain
    exact hstruct x l (chainRel_mono (fun a b => recordedEdge_sub_edge hwf.toWFAny) _ hchain)
  · intro c r₁ r₂ h₁ h₂
    exact edge_inDegree_le_one hwf (recordedEdge_sub_edge hwf.toWFAny h₁)
      (recordedEdge_sub_edge hwf.toWFAny h₂)

/-- Concrete reachable state used by several witnesses. -/
def demoStateAB : Storage :=
  (ReferralNetwork.addReferral Config.default Storage.empty uidA uidB).2

theorem forest_invariant_witness :
    (∀ (x : UserId) (l : List UserId), ¬ IsChainRel (RecordedEdge demoStateAB) (x :: (l ++ [x]))) ∧
    (∀ c r₁ r₂, RecordedEdge demoStateAB r₁ c → RecordedEdge demoStateAB r₂ c → r₁ = r₂) ∧
    (∀ (x : UserId) (l : List UserId), ¬ IsChainRel (Edge demoStateAB) (x :: (l ++ [x]))) ∧
    (∀ c r₁ r₂, Edge demoStateAB r₁ c → Edge demoStateAB r₂ c → r₁ = r₂) :=
  forest_invariant demoStateAB
    (ReachableCfg.step Config.default uidA uidB rfl ReachableCfg.empty)

/-- Claim C2 — atomicity of rejection: for every store state and every
configuration, an `addReferral` call that returns a failure leaves the
storage state (hence `getAllUsers`, `getNetworkStats`, and the referral
relationships) unchanged. -/
theorem addReferral_failure_atomic (cfg : Config) (s : Storage) (r c : UserId) (e : ErrKind)
    (h : (ReferralNetwork.addReferral cfg s r c).1 = some e) :
    (ReferralNetwork.addReferral cfg s r c).2 = s ∧
    InMemoryStorage.getAllUsers (ReferralNetwork.addReferral cfg s r c).2 =
      InMemoryStorage.getAllUsers s ∧
    InMemoryStorage.getNetworkStats (ReferralNetwork.addReferral cfg s r c).2 =
      InMemoryStorage.getNetworkStats s ∧
    (ReferralNetwork.addReferral cfg s r c).2.referrals = s.referrals := by
  have hstate : (ReferralNetwork.addReferral cfg s r c).2 = s := by
    unfold ReferralNetwork.addReferral
    unfold ReferralNetwork.addReferral at h
    cases hvr : isValidUserId r with
    | false => simp [hvr]
    | true =>
        cases hvc : isValidUserId c with
        | false => simp [hvr, hvc]
        | true =>
            simp only [hvr, hvc, Bool.not_true, Bool.false_eq_true, if_false] at h ⊢
            cases hval : validateReferralConstraints cfg s r c with
            | some e' => rfl
            | none =>
                rw [hval] at h
                cases h
  exact ⟨hstate, by rw [hstate], by rw [hstate], by rw [hstate]⟩

theorem addReferral_failure_atomic_witness :
    (ReferralNetwork.addReferral Config.default Storage.empty uidA uidA).1 =
        some ErrKind.SELF_REFERRAL ∧
    (ReferralNetwork.addReferral Config.default Storage.empty uidA uidA).2 = Storage.empty :=
  ⟨by decide,
   (addReferral_failure_atomic Config.default Storage.empty uidA uidA
      ErrKind.SELF_REFERRAL (by decide)).1⟩

theorem canReach_self (s : Storage) (a : UserId) : InMemoryStorage.canReach s a a = true := by
  unfold InMemoryStorage.canReach
  rw [if_pos rfl]

/-- Claim C6 — cycle pre-check subsumes self-loops: for every storage state
and every configuration with `allowCycles = false` (in particular even with
`allowSelfReferrals = true`), `addReferral(a, a)` with a valid identifier
fails, because `canReach(a, a)` holds via the zero-edge path. -/
theorem self_loop_always_rejected (cfg : Config) (s : Storage) (a : UserId)
    (hcy : cfg.allowCycles = false) (hva : isValidUserId a = true) :
    ((ReferralNetwork.addReferral cfg s a a).1.isSome = true) ∧
    (ReferralNetwork.addReferral cfg s a a).2 = s := by
  have hfail : ∃ e, validateReferralConstraints cfg s a a = some e := by
    unfold validateReferralConstraints
    cases h1 : selfCheckFails cfg a a with
    | true => exact ⟨ErrKind.SELF_REFERRAL, by rw [if_pos rfl]⟩
    | false =>
        simp only [Bool.false_eq_true, if_false]
        cases h2 : multiCheckFails cfg s a a with
        | true => exact ⟨ErrKind.MULTIPLE_REFERRERS, by rw [if_pos rfl]⟩
        | false =>
            simp only [Bool.false_eq_true, if_false]
            have h3 : cycleCheckFails cfg s a a = true := by
              unfold cycleCheckFails InMemoryStorage.wouldCreateCycle
              rw [hcy, canReach_self]
              rfl
            exact ⟨ErrKind.CYCLE_DETECTED, by rw [h3, if_pos rfl]⟩
  obtain ⟨e, he⟩ := hfail
  unfold ReferralNetwork.addReferral
  simp only [hva, Bool.not_true, Bool.false_eq_true, if_false, he]
  simp

theorem self_loop_always_rejected_witness :
    Config.default.allowCycles = false ∧ isValidUserId uidA = true ∧
    ((ReferralNetwork.addReferral Config.default demoStateAB uidA uidA).1.isSome = true) ∧
    (ReferralNetwork.addReferral Config.default demoStateAB uidA uidA).2 = demoStateAB :=
  ⟨rfl, by decide, self_loop_always_rejected Config.default demoStateAB uidA rfl (by decide)⟩

/-- Claim C10 — network size limit: with `maxNetworkSize = some m`, `m > 0`,
and at least `m` users present, every `addReferral` whose input, self-referral,
multiple-referrer and cycle checks all pass fails with `NETWORK_SIZE_LIMIT`
(no matter whether the endpoints exist or the edge is already present);
and `maxNetworkSize = some 0` behaves exactly like an absent limit. -/
theorem network_size_limit_behavior (cfg : Config) (s : Storage) (r c : UserId) (m : Nat)
    (hm : cfg.maxNetworkSize = some m) (hmpos : 0 < m) (hfull : m ≤ s.users.length)
    (hvr : isValidUserId r = true) (hvc : isValidUserId c = true)
    (hself : cfg.allowSelfReferrals = true ∨ r ≠ c)
    (hmulti : cfg.allowMultipleReferrers = true ∨
      InMemoryStorage.getParent s c = none ∨ InMemoryStorage.getParent s c = some r)
    (hcycle : cfg.allowCycles = true ∨ InMemoryStorage.wouldCreateCycle s r c = false) :
    (ReferralNetwork.addReferral cfg s r c).1 = some ErrKind.NETWORK_SIZE_LIMIT ∧
    (∀ (cfg' : Config) (s' : Storage) (r' c' : UserId),
      ReferralNetwork.addReferral { cfg' with maxNetworkSize := some 0 } s' r' c' =
      ReferralNetwork.addReferral { cfg' with maxNetworkSize := none } s' r' c') := by
  constructor
  · have hc1 : selfCheckFails cfg r c = false := by
      unfold selfCheckFails
      rcases hself with h' | h'
      · simp [h']
      · simp [h']
    have hc2 : multiCheckFails cfg s r c = false := by
      unfold multiCheckFails
      rcases hmulti with h' | h' | h'
      · simp [h']
      · simp [h']
      · simp [h']
    have hc3 : cycleCheckFails cfg s r c = false := by
      unfold cycleCheckFails
      rcases hcycle with h' | h'
      · simp [h']
      · simp [h']
    have hc4 : sizeCheckFails cfg s = true := by
      unfold sizeCheckFails optTruthy
      rw [hm]
      have hne : m ≠ 0 := by omega
      have hge : m ≤ (InMemoryStorage.getNetworkStats s).totalUsers := by
        have : (InMemoryStorage.getNetworkStats s).totalUsers = s.users.length := rfl
        rw [this]
        exact hfull
      simp [hne, hge]
    have hval : validateReferralConstraints cfg s r c = some ErrKind.NETWORK_SIZE_LIMIT := by
      unfold validateReferralConstraints
      rw [hc1, hc2, hc3, hc4]
      simp
    unfold ReferralNetwork.addReferral
    simp only [hvr, hvc, Bool.not_true, Bool.false_eq_true, if_false, hval]
  · intro cfg' s' r' c'
    unfold ReferralNetwork.addReferral validateReferralConstraints sizeCheckFails
      selfCheckFails multiCheckFails cycleCheckFails limitCheckFails
    simp [optTruthy]

theorem network_size_limit_witness :
    (ReferralNetwork.addReferral { maxNetworkSize := some 1 } demoStateAB uidA uidB).1 =
      some ErrKind.NETWORK_SIZE_LIMIT ∧
    (∀ (cfg' : Config) (s' : Storage) (r' c' : UserId),
      ReferralNetwork.addReferral { cfg' with maxNetworkSize := some 0 } s' r' c' =
      ReferralNetwork.addReferral { cfg' with maxNetworkSize := none } s' r' c') :=
  network_size_limit_behavior { maxNetworkSize := some 1 } demoStateAB uidA uidB 1
    rfl (by decide) (by decide) (by decide) (by decide)
    (.inr (by decide)) (.inr (.inr (by decide))) (.inr (by decide))

/-- Scenario states of C3: Alice→Bob, Alice→Charlie, Bob→David, Bob→Eve. -/
def alice : UserId := "Alice"

def bobU : UserId := "Bob"

def charlie : UserId := "Charlie"

def davidU : UserId := "David"

def eveU : UserId := "Eve"

def scenState1 : Storage :=
  (ReferralNetwork.addReferral Config.default Storage.empty alice bobU).2

def scenState2 : Storage :=
  (ReferralNetwork.addReferral Config.default scenState1 alice charlie).2

def scenState3 : Storage :=
  (ReferralNetwork.addReferral Config.default scenState2 bobU davidU).2

def scenState4 : Storage :=
  (ReferralNetwork.addReferral Config.default scenState3 bobU eveU).2

/-- Claim C3 — scenario correctness: the four `addReferral` calls succeed,
`allReferrals("Alice")` is exactly the set `{Bob, Charlie, David, Eve}` with
four elements, `Reach("Alice") = 4`, `Reach("Bob") = 2`, and the subsequent
`addReferral("David", "Alice")` fails with `CYCLE_DETECTED` leaving the
graph unchanged. -/
theorem scenario_correctness :
    (ReferralNetwork.addReferral Config.default Storage.empty alice bobU).1 = none ∧
    (ReferralNetwork.addReferral Config.default scenState1 alice charlie).1 = none ∧
    (ReferralNetwork.addReferral Config.default scenState2 bobU davidU).1 = none ∧
    (ReferralNetwork.addReferral Config.default scenState3 bobU eveU).1 = none ∧
    (InMemoryStorage.getAllReferrals scenState4 alice).Perm [bobU, charlie, davidU, eveU] ∧
    (InMemoryStorage.getAllReferrals scenState4 alice).length = 4 ∧
    calculateReach scenState4 alice = some 4 ∧
    calculateReach scenState4 bobU = some 2 ∧
    (ReferralNetwork.addReferral Config.default scenState4 davidU alice).1 =
      some ErrKind.CYCLE_DETECTED ∧
    (ReferralNetwork.addReferral Config.default scenState4 davidU alice).2 = scenState4 := by
  decide

/-! ## Re-adding an existing edge (C4) -/

theorem mget_mset_ne {β : Type} (l : List (UserId × β)) {k k' : UserId} (v : β)
    (h : k' ≠ k) : mget (mset l k v) k' = mget l k' := by
  induction l with
  | nil => simp [mset, mget, Ne.symm h]
  | cons hd tl ih =>
      obtain ⟨k₀, v₀⟩ := hd
      by_cases hk : k₀ = k
      · subst hk
        simp [mset, mget, Ne.symm h]
      · simp only [mset, if_neg hk]
        by_cases hk' : k₀ = k' <;> simp [mget, hk', ih]

theorem colon_split_inj :
    ∀ (l₁ : List Char) {l₂ l₃ l₄ : List Char}, ':' ∉ l₁ → ':' ∉ l₃ →
      l₁ ++ ':' :: l₂ = l₃ ++ ':' :: l₄ → l₁ = l₃ ∧ l₂ = l₄ := by
  intro l₁
  induction l₁ with
  | nil =>
      intro l₂ l₃ l₄ _ h₃ h
      cases l₃ with
      | nil =>
          simp at h
          exact ⟨rfl, h⟩
      | cons y l₃' =>
          simp at h
          obtain ⟨hy, -⟩ := h
          exact absurd (show (':' : Char) ∈ y :: l₃' by
            rw [← hy]; exact List.mem_cons_self _ _) h₃
  | cons x l₁' ih =>
      intro l₂ l₃ l₄ h₁ h₃ h
      cases l₃ with
      | nil =>
          simp at h
          obtain ⟨hx, -⟩ := h
          exact absurd (show (':' : Char) ∈ x :: l₁' by
            rw [hx]; exact List.mem_cons_self _ _) h₁
      | cons y l₃' =>
          simp at h
          obtain ⟨hxy, hrest⟩ := h
          have h₁' : ':' ∉ l₁' := fun hm => h₁ (List.mem_cons_of_mem _ hm)
          have h₃' : ':' ∉ l₃' := fun hm => h₃ (List.mem_cons_of_mem _ hm)
          obtain ⟨he, hl⟩ := ih h₁' h₃' hrest
          exact ⟨by rw [hxy, he], hl⟩

theorem colon_key_inj {a b c d : String} (ha : ':' ∉ a.data) (hb : ':' ∉ b.data)
    (hc : ':' ∉ c.data) (hd : ':' ∉ d.data)
    (h : a ++ ":" ++ b = c ++ ":" ++ d) : a = c ∧ b = d := by
  have hdata : a.data ++ ':' :: b.data = c.data ++ ':' :: d.data := by
    have := congrArg String.data h
    simpa [String.data_append] using this
  obtain ⟨h₁, h₂⟩ := colon_split_inj a.data ha hc hdata
  exact ⟨String.ext h₁, String.ext h₂⟩

/-- No user id contains the `':'` separator of the referral keys. -/
def NoColonIds (s : Storage) : Prop :=
  ∀ kv ∈ s.users, ':' ∉ kv.1.data

instance (s : Storage) : Decidable (NoColonIds s) := by
  unfold NoColonIds
  infer_instance

theorem netAdd_users_key_mono (cfg : Config) (s : Storage) (r c u : UserId)
    (h : (mget s.users u).isSome) :
    (mget (ReferralNetwork.addReferral cfg s r c).2.users u).isSome := by
  unfold ReferralNetwork.addReferral
  cases hvr : isValidUserId r with
  | false => simpa [hvr] using h
  | true =>
      cases hvc : isValidUserId c with
      | false => simpa [hvr, hvc] using h
      | true =>
          simp only [hvr, hvc, Bool.not_true, Bool.false_eq_true, if_false]
          cases hval : validateReferralConstraints cfg s r c with
          | some e => exact h
          | none => exact mget_addReferral_isSome_mono s r c u h

theorem noColon_of_step (cfg : Config) (s : Storage) (r c : UserId)
    (h : NoColonIds (ReferralNetwork.addReferral cfg s r c).2) : NoColonIds s := by
  intro kv hkv
  have hkey : (mget s.users kv.1).isSome := by
    rw [mget_isSome_iff_mem_keys]
    exact List.mem_map.mpr ⟨kv, hkv, rfl⟩
  have := netAdd_users_key_mono cfg s r c kv.1 hkey
  cases hm : mget (ReferralNetwork.addReferral cfg s r c).2.users kv.1 with
  | none => rw [hm] at this; cases this
  | some n' => exact h (kv.1, n') (mget_mem hm)

theorem noColon_of_key {s : Storage} (h : NoColonIds s) {u : UserId}
    (hu : (mget s.users u).isSome) : ':' ∉ u.data := by
  cases hm : mget s.users u with
  | none => rw [hm] at hu; cases hu
  | some n => exact h _ (mget_mem hm)

theorem edge_endpoints_present {s : Storage} (hwf : WFAny s) {x y : UserId}
    (h : Edge s x y) : (mget s.users x).isSome ∧ (mget s.users y).isSome := by
  refine ⟨?_, hwf.childUsers x y h⟩
  unfold Edge children InMemoryStorage.getDirectReferrals at h
  cases hm : mget s.users x with
  | none => rw [hm] at h; cases h
  | some n => simp

/-- Stored referral entries of a reachable colon-free state record exactly
the structural edges. -/
theorem edgeRec_of_reachable {s : Storage} (h : ReachableDefault s) (hnc : NoColonIds s) :
    ∀ x y, Edge s x y → mget s.referrals (x ++ ":" ++ y) = some ⟨x, y⟩ := by
  induction h with
  | empty =>
      intro x y he
      unfold Edge children InMemoryStorage.getDirectReferrals at he
      simp [Storage.empty, mget] at he
  | @step s₀ cfg r c hcfg hreach ih =>
      subst hcfg
      have hnc₀ : NoColonIds s₀ := noColon_of_step _ _ _ _ hnc
      have ihrec := ih hnc₀
      have hwf₀ : WFDefault s₀ := WFDefault_of_reachableDefault hreach
      intro x y he
      revert he
      unfold ReferralNetwork.addReferral at hnc ⊢
      cases hvr : isValidUserId r with
      | false =>
          rw [hvr] at hnc
          simp only [Bool.not_false, if_true] at hnc ⊢
          exact ihrec x y
      | true =>
          cases hvc : isValidUserId c with
          | false =>
              rw [hvr, hvc] at hnc
              simp only [Bool.not_true, Bool.not_false, Bool.false_eq_true, if_false, if_true] at hnc ⊢
              exact ihrec x y
          | true =>
              rw [hvr, hvc] at hnc
              simp only [Bool.not_true, Bool.false_eq_true, if_false] at hnc ⊢
              cases hval : validateReferralConstraints Config.default s₀ r c with
              | some e =>
                  rw [hval] at hnc
                  exact ihrec x y
              | none =>
                  rw [hval] at hnc
                  obtain ⟨hrc, -, -⟩ := default_success_facts hval
                  intro he
                  rw [referrals_addReferral]
                  have hrmem : (mget (InMemoryStorage.addReferral s₀ r c).users r).isSome := by
                    rw [mget_addReferral_gen]
                    cases mget s₀.users r <;> simp
                  have hcmem := mget_addReferral_isSome_c s₀ r c
                  have hncr : ':' ∉ r.data := noColon_of_key hnc hrmem
                  have hncc : ':' ∉ c.data := noColon_of_key hnc hcmem
                  rcases (edge_addReferral s₀ hrc).mp he with hold | ⟨rfl, rfl⟩
                  · obtain ⟨hxp, hyp⟩ := edge_endpoints_present hwf₀.toWFAny hold
                    have hncx : ':' ∉ x.data :=
                      noColon_of_key hnc (mget_addReferral_isSome_mono s₀ r c x hxp)
                    have hncy : ':' ∉ y.data :=
                      noColon_of_key hnc (mget_addReferral_isSome_mono s₀ r c y hyp)
                    by_cases hkey : x ++ ":" ++ y = r ++ ":" ++ c
                    · obtain ⟨rfl, rfl⟩ := colon_key_inj hncx hncy hncr hncc hkey
                      rw [mget_mset_self]
                    · rw [mget_mset_ne _ _ hkey]
                      exact ihrec x y hold
                  · rw [mget_mset_self]

theorem addUser_present {s : Storage} {id : UserId} {n : UserNode}
    (h : mget s.users id = some n) : InMemoryStorage.addUser s id = s := by
  unfold InMemoryStorage.addUser
  rw [h]

theorem updateUser_entries_id {f : UserNode → UserNode} {id : UserId} :
    ∀ (l : List (UserId × UserNode)), (l.map (·.1)).Nodup →
      (∀ n, mget l id = some n → f n = n) →
      l.map (fun kv => if kv.1 = id then (kv.1, f kv.2) else kv) = l := by
  intro l
  induction l with
  | nil => intro _ _; rfl
  | cons hd tl ih =>
      intro hnd h
      obtain ⟨k, v⟩ := hd
      simp only [List.map_cons, List.nodup_cons] at hnd
      by_cases hk : k = id
      · subst hk
        have hfv : f v = v := h v (by simp [mget])
        rw [List.map_cons]
        have hrest : tl.map (fun kv => if kv.1 = k then (kv.1, f kv.2) else kv) = tl := by
          have hpt : ∀ kv ∈ tl, (if kv.1 = k then (kv.1, f kv.2) else kv) = kv := by
            intro kv hkv
            have hne : kv.1 ≠ k := fun heq => hnd.1 (List.mem_map.mpr ⟨kv, hkv, heq⟩)
            simp [hne]
          calc tl.map (fun kv => if kv.1 = k then (kv.1, f kv.2) else kv)
              = tl.map id := List.map_congr_left hpt
            _ = tl := List.map_id tl
        rw [hrest]
        simp [hfv]
      · rw [List.map_cons, if_neg hk]
        rw [ih hnd.2 (fun n hn => h n (by simpa [mget, hk] using hn))]

theorem updateUser_id_eq {s : Storage} {id : UserId} {f : UserNode → UserNode}
    (hnd : (s.users.map (·.1)).Nodup)
    (h : ∀ n, mget s.users id = some n → f n = n) : updateUser s id f = s := by
  cases s with
  | mk users referrals =>
      unfold updateUser
      simp only
      rw [updateUser_entries_id users hnd h]

theorem storageAdd_noop {s : Storage} (hwf : WFDefault s) {a b : UserId}
    (hedge : Edge s a b)
    (hrec : mget s.referrals (a ++ ":" ++ b) = some ⟨a, b⟩) :
    InMemoryStorage.addReferral s a b = s := by
  obtain ⟨hpa, hpb⟩ := edge_endpoints_present hwf.toWFAny hedge
  obtain ⟨na, hna⟩ := Option.isSome_iff_exists.mp hpa
  obtain ⟨nb, hnb⟩ := Option.isSome_iff_exists.mp hpb
  have hstage : InMemoryStorage.addReferral s a b =
      updateUser
        (updateUser
          (InMemoryStorage.addUser
            (InMemoryStorage.addUser
              { s with referrals := mset s.referrals (a ++ ":" ++ b) ⟨a, b⟩ } a) b)
          a (fun n => if b ∈ n.directReferrals then n
                      else { n with directReferrals := n.directReferrals ++ [b] }))
        b (fun n => { n with parent := some a }) := rfl
  rw [hstage]
  have hs1 : ({ s with referrals := mset s.referrals (a ++ ":" ++ b) ⟨a, b⟩ } : Storage) = s := by
    rw [mset_eq_self hrec]
  rw [hs1, addUser_present hna, addUser_present hnb]
  have hbmem : b ∈ na.directReferrals := by
    unfold Edge children InMemoryStorage.getDirectReferrals at hedge
    rw [hna] at hedge
    exact hedge
  rw [updateUser_id_eq hwf.keysNodup (fun n hn => by
    rw [hna] at hn
    cases hn
    rw [if_pos hbmem])]
  have hparb : nb.parent = some a := by
    have := hwf.parentEdge a b hedge
    unfold rawParent at this
    rw [hnb] at this
    exact this
  rw [updateUser_id_eq hwf.keysNodup (fun n hn => by
    rw [hnb] at hn
    cases hn
    cases nb with
    | mk uid dr par =>
        simp at hparb
        simp [hparb])]

/-- Amended claim C4: with the default configuration, in a reachable state
whose user ids contain no `':'`, re-adding an existing edge `a → b`
succeeds and leaves the entire store (users map and referral relationships)
unchanged — in particular it does not duplicate `b` in `a`'s
direct-referral list. -/
theorem readd_existing_edge_noop (s : Storage) (h : ReachableDefault s)
    (hnc : NoColonIds s) (a b : UserId) (hab : a ≠ b)
    (hedge : Edge s a b) :
    ReferralNetwork.addReferral Config.default s a b = (none, s) := by
  have hwf := WFDefault_of_reachableDefault h
  obtain ⟨hpa, hpb⟩ := edge_endpoints_present hwf.toWFAny hedge
  have hva : isValidUserId a = true := by
    obtain ⟨na, hna⟩ := Option.isSome_iff_exists.mp hpa
    exact hwf.validIds a na hna
  have hvb : isValidUserId b = true := by
    obtain ⟨nb, hnb⟩ := Option.isSome_iff_exists.mp hpb
    exact hwf.validIds b nb hnb
  have hval : validateReferralConstraints Config.default s a b = none := by
    unfold validateReferralConstraints
    have h1 : selfCheckFails Config.default a b = false := by
      unfold selfCheckFails
      simp [hab]
    have h2 : multiCheckFails Config.default s a b = false := by
      unfold multiCheckFails
      rw [rawParent_eq_getParent hwf.toWFAny b, hwf.parentEdge a b hedge]
      simp
    have h3 : cycleCheckFails Config.default s a b = false := by
      unfold cycleCheckFails InMemoryStorage.wouldCreateCycle
      cases hcr : InMemoryStorage.canReach s b a with
      | false => simp
      | true =>
          exfalso
          exact hwf.acyclic a ⟨b, hedge, canReach_eq_true_reach s hcr⟩
    rw [h1, h2, h3]
    simp [sizeCheckFails, limitCheckFails, Config.default, optTruthy]
  have hrec := edgeRec_of_reachable h hnc a b hedge
  unfold ReferralNetwork.addReferral
  rw [hva, hvb]
  simp only [Bool.not_true, Bool.false_eq_true, if_false, hval]
  rw [storageAdd_noop hwf hedge hrec]

/-- Witness for the amended C4 at a concrete reachable state. -/
theorem readd_existing_edge_noop_witness :
    ReferralNetwork.addReferral Config.default demoStateAB uidA uidB = (none, demoStateAB) :=
  readd_existing_edge_noop demoStateAB
    (ReachableCfg.step Config.default uidA uidB rfl ReachableCfg.empty)
    (by decide) uidA uidB (by decide) (by decide)

/-- Identifiers exhibiting the `referrer:candidate` key collision. -/
def colA : UserId := "a"

def colBC : UserId := "b:c"

def colAB : UserId := "a:b"

def colC : UserId := "c"

def collideState1 : Storage :=
  (ReferralNetwork.addReferral Config.default Storage.empty colA colBC).2

def collideState2 : Storage :=
  (ReferralNetwork.addReferral Config.default collideState1 colAB colC).2

/-- Counterexample to C4 as stated: in the default configuration, after the
successful calls `addReferral("a", "b:c")` and `addReferral("a:b", "c")`
(whose referral keys collide on the string `a:b:c`), re-adding the existing
edge `"a" → "b:c"` succeeds but does not leave the edge structure
unchanged: the stored referral relationship under the colliding key flips
back, so the store differs from its pre-call value. -/
theorem readd_existing_edge_counterexample :
    (ReferralNetwork.addReferral Config.default Storage.empty colA colBC).1 = none ∧
    (ReferralNetwork.addReferral Config.default collideState1 colAB colC).1 = none ∧
    colBC ∈ children collideState2 colA ∧
    (ReferralNetwork.addReferral Config.default collideState2 colA colBC).1 = none ∧
    (ReferralNetwork.addReferral Config.default collideState2 colA colBC).2 ≠ collideState2 := by
  decide

/-! ## Forest geometry: comparability and sibling disjointness -/

theorem reach_comparable {s : Storage} (hwf : WFDefault s) :
    ∀ {b x : UserId}, Reach s b x → ∀ a, Reach s a x → Reach s a b ∨ Reach s b a := by
  intro b x hbx
  induction hbx with
  | refl => exact fun a hax => .inl hax
  | @step b m x e hmx ih =>
      intro a hax
      rcases ih a hax with h' | h'
      · rcases h'.last_decomp with rfl | ⟨p, hap, hpm⟩
        · exact .inr (.of_edge e)
        · have hpb : p = b := by
            have h₁ := hwf.parentEdge p m hpm
            have h₂ := hwf.parentEdge b m e
            rw [h₁] at h₂
            exact Option.some.inj h₂
          exact .inl (hpb ▸ hap)
      · exact .inr (.step e h')

theorem sibling_disjoint {s : Storage} (hwf : WFDefault s) {u c₁ c₂ : UserId}
    (hne : c₁ ≠ c₂) (h₁ : Edge s u c₁) (h₂ : Edge s u c₂) :
    ∀ x, Reach s c₁ x → Reach s c₂ x → False := by
  have key : ∀ {d₁ d₂ : UserId}, d₁ ≠ d₂ → Edge s u d₁ → Edge s u d₂ →
      Reach s d₁ d₂ → False := by
    intro d₁ d₂ hd he₁ he₂ hr
    rcases hr.last_decomp with rfl | ⟨p, hp, hpm⟩
    · exact hd rfl
    · have hpu : p = u := by
        have ha := hwf.parentEdge p d₂ hpm
        have hb := hwf.parentEdge u d₂ he₂
        rw [ha] at hb
        exact Option.some.inj hb
      subst hpu
      exact hwf.acyclic p ⟨d₁, he₁, hp⟩
  intro x hx₁ hx₂
  rcases reach_comparable hwf hx₂ c₁ hx₁ with h' | h'
  · exact key hne h₁ h₂ h'
  · exact key (Ne.symm hne) h₂ h₁ h'

/-! ## Correctness of the `getAllReferrals` DFS on forest states -/

/-- User keys of a state as a finite set (measure for DFS fuel). -/
def usersF (s : Storage) : Finset String :=
  (s.users.map (·.1)).toFinset

theorem usersF_card_le (s : Storage) : (usersF s).card ≤ s.users.length := by
  calc (usersF s).card ≤ (s.users.map (·.1)).length := List.toFinset_card_le _
    _ = s.users.length := List.length_map _ _

theorem mem_usersF_of_mget {s : Storage} {u : UserId} (h : (mget s.users u).isSome) :
    u ∈ usersF s := by
  rw [usersF, List.mem_toFinset]
  exact mget_isSome_iff_mem_keys.mp h

theorem garAux_spec {s : Storage} (hwf : WFDefault s) :
    ∀ (fuel : Nat) (vis res : List UserId) (cur : UserId),
      ((usersF s) \ vis.toFinset).card + 1 < fuel →
      (∀ x, Reach s cur x → x ∉ vis) →
      ∃ vis' out,
        garAux s fuel (vis, res) cur = (vis', res ++ out) ∧
        (∀ x, x ∈ out ↔ ReachPos s cur x) ∧
        out.Nodup ∧
        (∀ x ∈ vis', x ∈ vis ∨ Reach s cur x) ∧
        (∀ x ∈ vis, x ∈ vis') := by
  intro fuel
  induction fuel with
  | zero => intro vis res cur hm _; omega
  | succ F ih =>
      intro vis res cur hm hdis
      have hcur : cur ∉ vis := hdis cur (.refl cur)
      rw [garAux, if_neg hcur]
      cases hget : mget s.users cur with
      | none =>
          refine ⟨cur :: vis, [], by simp, ?_, List.nodup_nil, ?_, ?_⟩
          · intro x
            simp only [List.not_mem_nil, false_iff]
            rintro ⟨m, e, -⟩
            unfold Edge children InMemoryStorage.getDirectReferrals at e
            rw [hget] at e
            cases e
          · intro x hx
            rcases List.mem_cons.mp hx with rfl | hx'
            · exact .inr (.refl x)
            · exact .inl hx'
          · intro x hx
            exact List.mem_cons_of_mem _ hx
      | some node =>
          have hchildren : children s cur = node.directReferrals :=
            children_eq_of_mget s hget
          have hcurF : cur ∈ usersF s := mem_usersF_of_mget (by simp [hget])
          -- inner induction over the children list
          have inner : ∀ (cs : List UserId), (∀ c ∈ cs, Edge s cur c) → cs.Nodup →
              ∀ (visAcc resAcc : List UserId),
              (∀ x, (∃ c ∈ cs, Reach s c x) → x ∉ visAcc) →
              (∀ x ∈ visAcc, x ∈ vis ∨ Reach s cur x) →
              cur ∈ visAcc →
              (∀ x ∈ vis, x ∈ visAcc) →
              ∃ vis' out,
                cs.foldl (fun st child => garAux s F (st.1, st.2 ++ [child]) child)
                    (visAcc, resAcc) = (vis', resAcc ++ out) ∧
                (∀ x, x ∈ out ↔ ∃ c ∈ cs, x = c ∨ ReachPos s c x) ∧
                out.Nodup ∧
                (∀ x ∈ vis', x ∈ visAcc ∨ ∃ c ∈ cs, Reach s c x) ∧
                (∀ x ∈ visAcc, x ∈ vis') := by
            intro cs
            induction cs with
            | nil =>
                intro _ _ visAcc resAcc _ _ _ _
                exact ⟨visAcc, [], by simp, by simp, List.nodup_nil,
                  fun x hx => .inl hx, fun x hx => hx⟩
            | cons c₁ cs' ihcs =>
                intro hedges hnodup visAcc resAcc hIA hIB hIC hID
                have he₁ : Edge s cur c₁ := hedges c₁ (List.mem_cons_self _ _)
                have hfuel₁ : ((usersF s) \ visAcc.toFinset).card + 1 < F := by
                  have hsub : (usersF s) \ visAcc.toFinset ⊆
                      ((usersF s) \ vis.toFinset).erase cur := by
                    intro x hx
                    rw [Finset.mem_sdiff, List.mem_toFinset] at hx
                    rw [Finset.mem_erase, Finset.mem_sdiff, List.mem_toFinset]
                    refine ⟨?_, hx.1, fun hxv => hx.2 (hID x hxv)⟩
                    intro hxc
                    exact hx.2 (hxc ▸ hIC)
                  have hcurmem : cur ∈ (usersF s) \ vis.toFinset := by
                    rw [Finset.mem_sdiff, List.mem_toFinset]
                    exact ⟨hcurF, hcur⟩
                  have hle := Finset.card_le_card hsub
                  rw [Finset.card_erase_of_mem hcurmem] at hle
                  have hpos : 0 < ((usersF s) \ vis.toFinset).card :=
                    Finset.card_pos.mpr ⟨cur, hcurmem⟩
                  omega
                obtain ⟨vis₁, out₁, heq₁, hmem₁, hnd₁, hsub₁, hmono₁⟩ :=
                  ih visAcc (resAcc ++ [c₁]) c₁ hfuel₁
                    (fun x hx => hIA x ⟨c₁, List.mem_cons_self _ _, hx⟩)
                simp only [List.nodup_cons] at hnodup
                obtain ⟨vis₂, out₂, heq₂, hmem₂, hnd₂, hsub₂, hmono₂⟩ :=
                  ihcs (fun c hc => hedges c (List.mem_cons_of_mem _ hc)) hnodup.2
                    vis₁ (resAcc ++ [c₁] ++ out₁)
                    (by
                      intro x ⟨c, hc, hcx⟩
                      intro hxvis₁
                      have hcc₁ : c ≠ c₁ := fun h => hnodup.1 (h ▸ hc)
                      rcases hsub₁ x hxvis₁ with hxacc | hxr₁
                      · exact hIA x ⟨c, List.mem_cons_of_mem _ hc, hcx⟩ hxacc
                      · exact sibling_disjoint hwf hcc₁
                          (hedges c (List.mem_cons_of_mem _ hc)) he₁ x hcx hxr₁)
                    (by
                      intro x hx
                      rcases hsub₁ x hx with hxacc | hxr₁
                      · exact hIB x hxacc
                      · exact .inr (.step he₁ hxr₁))
                    (hmono₁ cur hIC)
                    (fun x hx => hmono₁ x (hID x hx))
                refine ⟨vis₂, c₁ :: (out₁ ++ out₂), ?_, ?_, ?_, ?_, ?_⟩
                · rw [List.foldl_cons, heq₁, heq₂]
                  simp
                · intro x
                  constructor
                  · intro hx
                    rcases List.mem_cons.mp hx with rfl | hx'
                    · exact ⟨x, List.mem_cons_self _ _, .inl rfl⟩
                    · rcases List.mem_append.mp hx' with h₁ | h₂
                      · exact ⟨c₁, List.mem_cons_self _ _, .inr ((hmem₁ x).mp h₁)⟩
                      · obtain ⟨c, hc, hcx⟩ := (hmem₂ x).mp h₂
                        exact ⟨c, List.mem_cons_of_mem _ hc, hcx⟩
                  · rintro ⟨c, hc, hcx⟩
                    rcases List.mem_cons.mp hc with rfl | hc'
                    · rcases hcx with rfl | hpos
                      · exact List.mem_cons_self _ _
                      · exact List.mem_cons_of_mem _
                          (List.mem_append_left _ ((hmem₁ x).mpr hpos))
                    · exact List.mem_cons_of_mem _
                        (List.mem_append_right _ ((hmem₂ x).mpr ⟨c, hc', hcx⟩))
                · -- Nodup (c₁ :: (out₁ ++ out₂))
                  rw [List.nodup_cons, List.nodup_append]
                  have hc₁out₁ : c₁ ∉ out₁ := by
                    intro hmem
                    exact hwf.acyclic c₁ ((hmem₁ c₁).mp hmem)
                  have hreach₂ : ∀ x ∈ out₂, ∃ c ∈ cs', Reach s c x := by
                    intro x hx
                    obtain ⟨c, hc, hcx⟩ := (hmem₂ x).mp hx
                    rcases hcx with rfl | hpos
                    · exact ⟨x, hc, .refl x⟩
                    · exact ⟨c, hc, hpos.to_reach⟩
                  have hc₁out₂ : c₁ ∉ out₂ := by
                    intro hmem
                    obtain ⟨c, hc, hcx⟩ := hreach₂ c₁ hmem
                    have hcc₁ : c ≠ c₁ := fun h => hnodup.1 (h ▸ hc)
                    exact sibling_disjoint hwf hcc₁
                      (hedges c (List.mem_cons_of_mem _ hc)) he₁ c₁ hcx (.refl c₁)
                  refine ⟨?_, hnd₁, hnd₂, ?_⟩
                  · intro hmem
                    rcases List.mem_append.mp hmem with h₁ | h₂
                    · exact hc₁out₁ h₁
                    · exact hc₁out₂ h₂
                  · intro x hx₁ hx₂
                    have hr₁ : Reach s c₁ x := ((hmem₁ x).mp hx₁).to_reach
                    obtain ⟨c, hc, hcx⟩ := hreach₂ x hx₂
                    have hcc₁ : c ≠ c₁ := fun h => hnodup.1 (h ▸ hc)
                    exact sibling_disjoint hwf hcc₁
                      (hedges c (List.mem_cons_of_mem _ hc)) he₁ x hcx hr₁
                · intro x hx
                  rcases hsub₂ x hx with hx₁ | ⟨c, hc, hcx⟩
                  · rcases hsub₁ x hx₁ with hxacc | hxr
                    · exact .inl hxacc
                    · exact .inr ⟨c₁, List.mem_cons_self _ _, hxr⟩
                  · exact .inr ⟨c, List.mem_cons_of_mem _ hc, hcx⟩
                · intro x hx
                  exact hmono₂ x (hmono₁ x hx)
          have hIA₀ : ∀ x, (∃ c ∈ node.directReferrals, Reach s c x) → x ∉ cur :: vis := by
            rintro x ⟨c, hc, hcx⟩ hx
            have hedge : Edge s cur c := by
              unfold Edge
              rw [hchildren]
              exact hc
            rcases List.mem_cons.mp hx with rfl | hx'
            · exact hwf.acyclic x ⟨c, hedge, hcx⟩
            · exact hdis x (.step hedge hcx) hx'
          obtain ⟨vis', out, heq, hmem, hnd, hsub, hmono⟩ :=
            inner node.directReferrals
              (fun c hc => by
                unfold Edge
                rw [hchildren]
                exact hc)
              (hwf.childNodup cur node hget)
              (cur :: vis) res hIA₀
              (by
                intro x hx
                rcases List.mem_cons.mp hx with rfl | hx'
                · exact .inr (.refl x)
                · exact .inl hx')
              (List.mem_cons_self _ _)
              (fun x hx => List.mem_cons_of_mem _ hx)
          refine ⟨vis', out, heq, ?_, hnd, ?_, ?_⟩
          · intro x
            rw [hmem x, reachPos_iff]
            unfold Edge at *
            constructor
            · rintro ⟨c, hc, h'⟩
              refine ⟨c, by rw [hchildren]; exact hc, ?_⟩
              rcases h' with rfl | h''
              · exact .inl rfl
              · exact .inr h''
            · rintro ⟨c, hc, h'⟩
              refine ⟨c, by rw [hchildren] at hc; exact hc, ?_⟩
              rcases h' with rfl | h''
              · exact .inl rfl
              · exact .inr h''
          · intro x hx
            rcases hsub x hx with hx' | ⟨c, hc, hcx⟩
            · rcases List.mem_cons.mp hx' with rfl | hx''
              · exact .inr (.refl x)
              · exact .inl hx''
            · refine .inr (.step ?_ hcx)
              unfold Edge
              rw [hchildren]
              exact hc
          · intro x hx
            exact hmono x (List.mem_cons_of_mem _ hx)

theorem getAllReferrals_unknown {s : Storage} {u : UserId}
    (h : mget s.users u = none) : InMemoryStorage.getAllReferrals s u = [] := by
  unfold InMemoryStorage.getAllReferrals
  rw [show s.users.length + 2 = (s.users.length + 1) + 1 from rfl, garAux]
  simp [h]

theorem getAllReferrals_leaf {s : Storage} {u : UserId}
    (h : children s u = []) : InMemoryStorage.getAllReferrals s u = [] := by
  unfold InMemoryStorage.getAllReferrals
  rw [show s.users.length + 2 = (s.users.length + 1) + 1 from rfl, garAux]
  cases hget : mget s.users u with
  | none => simp [hget]
  | some node =>
      have : node.directReferrals = [] := by
        rw [← children_eq_of_mget s hget]
        exact h
      simp [hget, this]

/-- Amended claim C7: for every state reachable under the *default*
configuration, `getAllReferrals(id)` has no duplicates and contains exactly
the users reachable from `id` by one or more child edges, and it is empty
for an unknown id or a leaf.  (Under the relaxation toggles the
no-duplicates part fails, see the counterexample.) -/
theorem allDescendants_spec (s : Storage) (h : ReachableDefault s) (u : UserId) :
    (InMemoryStorage.getAllReferrals s u).Nodup ∧
    (∀ x, x ∈ InMemoryStorage.getAllReferrals s u ↔ ReachPos s u x) ∧
    (mget s.users u = none → InMemoryStorage.getAllReferrals s u = []) ∧
    (children s u = [] → InMemoryStorage.getAllReferrals s u = []) := by
  have hwf := WFDefault_of_reachableDefault h
  have hfuel : ((usersF s) \ ([] : List UserId).toFinset).card + 1 < s.users.length + 2 := by
    have := usersF_card_le s
    simp only [List.toFinset_nil, Finset.sdiff_empty]
    omega
  obtain ⟨vis', out, heq, hmem, hnd, -, -⟩ :=
    garAux_spec hwf (s.users.length + 2) [] [] u hfuel (by simp)
  have hres : InMemoryStorage.getAllReferrals s u = out := by
    unfold InMemoryStorage.getAllReferrals
    rw [heq]
    simp
  refine ⟨?_, ?_, fun h' => getAllReferrals_unknown h', fun h' => getAllReferrals_leaf h'⟩
  · rw [hres]; exact hnd
  · intro x
    rw [hres]
    exact hmem x

/-- Witness for the amended C7 at the concrete four-call scenario state. -/
theorem allDescendants_spec_witness :
    (InMemoryStorage.getAllReferrals scenState4 alice).Nodup ∧
    (∀ x, x ∈ InMemoryStorage.getAllReferrals scenState4 alice ↔ ReachPos scenState4 alice x) ∧
    (mget scenState4.users alice = none → InMemoryStorage.getAllReferrals scenState4 alice = []) ∧
    (children scenState4 alice = [] → InMemoryStorage.getAllReferrals scenState4 alice = []) :=
  allDescendants_spec scenState4
    (ReachableCfg.step Config.default bobU eveU rfl
      (ReachableCfg.step Config.default bobU davidU rfl
        (ReachableCfg.step Config.default alice charlie rfl
          (ReachableCfg.step Config.default alice bobU rfl ReachableCfg.empty))))
    alice

/-- Configuration and state exhibiting duplicate traversal output when
multiple referrers are allowed. -/
def cfgMulti : Config := { allowMultipleReferrers := true }

def idR : UserId := "R"

def idS : UserId := "S"

def idT : UserId := "T"

def idW : UserId := "W"

def multiState : Storage :=
  (ReferralNetwork.addReferral cfgMulti
    (ReferralNetwork.addReferral cfgMulti
      (ReferralNetwork.addReferral cfgMulti
        (ReferralNetwork.addReferral cfgMulti Storage.empty idR idS).2
        idR idT).2
      idS idW).2
    idT idW).2

/-- Counterexample to C7 as stated: in a store state reachable with
`allowMultipleReferrers = true` (edges R→S, R→T, S→W, T→W), the node W is
pushed twice by the DFS, so `getAllReferrals(R)` contains a duplicate. -/
theorem allDescendants_counterexample :
    ReachableAny multiState ∧
    ¬ (InMemoryStorage.getAllReferrals multiState idR).Nodup :=
  ⟨ReachableCfg.step cfgMulti idT idW trivial
      (ReachableCfg.step cfgMulti idS idW trivial
        (ReachableCfg.step cfgMulti idR idT trivial
          (ReachableCfg.step cfgMulti idR idS trivial ReachableCfg.empty))),
   by decide⟩

/-! ## `topKByReach` (C5) -/

theorem charListLe_total : ∀ l₁ l₂ : List Char, charListLe l₁ l₂ = true ∨ charListLe l₂ l₁ = true := by
  intro l₁
  induction l₁ with
  | nil => intro l₂; exact .inl rfl
  | cons a as ih =>
      intro l₂
      cases l₂ with
      | nil => exact .inr rfl
      | cons b bs =>
          by_cases hab : a.val < b.val
          · exact .inl (by simp [charListLe, hab])
          · by_cases hba : b.val < a.val
            · exact .inr (by simp [charListLe, hba])
            · rcases ih bs with h' | h'
              · exact .inl (by simp [charListLe, hab, hba, h'])
              · exact .inr (by simp [charListLe, hab, hba, h'])

theorem charListLe_trans : ∀ l₁ l₂ l₃ : List Char,
    charListLe l₁ l₂ = true → charListLe l₂ l₃ = true → charListLe l₁ l₃ = true := by
  intro l₁
  induction l₁ with
  | nil => intro l₂ l₃ _ _; rfl
  | cons a as ih =>
      intro l₂ l₃ h₁ h₂
      cases l₂ with
      | nil => simp [charListLe] at h₁
      | cons b bs =>
          cases l₃ with
          | nil => simp [charListLe] at h₂
          | cons c cs =>
              by_cases hab : a.val < b.val
              · by_cases hbc : b.val < c.val
                · have hac : a.val < c.val := Nat.lt_trans hab hbc
                  simp [charListLe, hac]
                · by_cases hcb : c.val < b.val
                  · simp [charListLe, hbc, hcb] at h₂
                  · have hbceq : b.val = c.val :=
                      UInt32.ext (Nat.le_antisymm (Nat.not_lt.mp hcb) (Nat.not_lt.mp hbc))
                    have hac : a.val < c.val := hbceq ▸ hab
                    simp [charListLe, hac]
              · by_cases hba : b.val < a.val
                · simp [charListLe, hab, hba] at h₁
                · have habeq : a.val = b.val :=
                    UInt32.ext (Nat.le_antisymm (Nat.not_lt.mp hba) (Nat.not_lt.mp hab))
                  by_cases hbc : b.val < c.val
                  · have hac : a.val < c.val := habeq ▸ hbc
                    simp [charListLe, hac]
                  · by_cases hcb : c.val < b.val
                    · simp [charListLe, hbc, hcb] at h₂
                    · have hbceq : b.val = c.val :=
                        UInt32.ext (Nat.le_antisymm (Nat.not_lt.mp hcb) (Nat.not_lt.mp hbc))
                      have hac : ¬ a.val < c.val := by
                        rw [← hbceq, ← habeq]
                        exact fun hlt => absurd rfl (Nat.ne_of_lt hlt)
                      have hca : ¬ c.val < a.val := by
                        rw [← hbceq, ← habeq]
                        exact fun hlt => absurd rfl (Nat.ne_of_lt hlt)
                      rw [charListLe, if_neg hab, if_neg hba] at h₁
                      rw [charListLe, if_neg hbc, if_neg hcb] at h₂
                      rw [charListLe, if_neg hac, if_neg hca]
                      exact ih bs cs h₁ h₂

theorem reachLe_total : ∀ a b : UserId × Nat, (reachLe a b || reachLe b a) = true := by
  intro a b
  unfold reachLe strLe
  by_cases h : a.2 = b.2
  · rcases charListLe_total a.1.data b.1.data with h' | h' <;> simp [h, h']
  · by_cases hlt : b.2 < a.2
    · simp [h, hlt]
    · have : a.2 < b.2 := by omega
      simp [h, Ne.symm h, hlt, this]

theorem reachLe_trans : ∀ a b c : UserId × Nat,
    reachLe a b = true → reachLe b c = true → reachLe a c = true := by
  intro a b c h₁ h₂
  unfold reachLe strLe at *
  by_cases hab : a.2 = b.2
  · by_cases hbc : b.2 = c.2
    · have hac : a.2 = c.2 := hab.trans hbc
      rw [if_pos hab] at h₁
      rw [if_pos hbc] at h₂
      rw [if_pos hac]
      exact charListLe_trans _ _ _ h₁ h₂
    · rw [if_neg hbc] at h₂
      have hcb : c.2 < b.2 := by simpa using h₂
      have hac : ¬ a.2 = c.2 := by omega
      rw [if_neg hac]
      simp
      omega
  · rw [if_neg hab] at h₁
    have hba : b.2 < a.2 := by simpa using h₁
    by_cases hbc : b.2 = c.2
    · have hac : ¬ a.2 = c.2 := by omega
      rw [if_neg hac]
      simp
      omega
    · rw [if_neg hbc] at h₂
      have hcb : c.2 < b.2 := by simpa using h₂
      have hac : ¬ a.2 = c.2 := by omega
      rw [if_neg hac]
      simp
      omega

theorem userReachPairs_eq {s : Storage} (h : WFAny s) :
    userReachPairs s =
      s.users.map (fun kv => (kv.1, (InMemoryStorage.getAllReferrals s kv.1).length)) := by
  unfold userReachPairs InMemoryStorage.getAllUsers
  have main : ∀ l : List (UserId × UserNode), (∀ kv ∈ l, kv ∈ s.users) →
      (l.map (·.2)).filterMap
          (fun n => (calculateReach s n.userId).map (fun r => (n.userId, r)))
        = l.map (fun kv => (kv.1, (InMemoryStorage.getAllReferrals s kv.1).length)) := by
    intro l
    induction l with
    | nil => intro _; rfl
    | cons kv tl ih =>
        intro hsub
        have hkv : kv ∈ s.users := hsub kv (List.mem_cons_self _ _)
        have hget : mget s.users kv.1 = some kv.2 := mem_mget h.keysNodup hkv
        have huid : kv.2.userId = kv.1 := h.userIdEq kv.1 kv.2 hget
        have hvalid : isValidUserId kv.1 = true := h.validIds kv.1 kv.2 hget
        have hcr : calculateReach s kv.2.userId =
            some (InMemoryStorage.getAllReferrals s kv.1).length := by
          unfold calculateReach ReferralNetwork.allReferrals
          rw [huid, hvalid]
          simp
        simp only [List.map_cons, List.filterMap_cons, hcr, Option.map_some']
        rw [ih (fun kv' hkv' => hsub kv' (List.mem_cons_of_mem _ hkv'))]
        rw [huid]
  exact main s.users (fun kv hkv => hkv)

/-- Claim C5 — `topKByReach` ranking rules: over every network state, the
result is the first `k` ids of the list of (userId, reach) pairs for all
users sorted by reach descending with ties by userId ascending
(`reachLe`); `k` defaults to 5; negative `k` throws; `k = 0` or an empty
network yields `[]` (an instance of taking `k` of the ranking); `k` at
least the user count yields all users in ranked order. -/
theorem topKByReach_spec (s : Storage) (h : ReachableAny s) :
    ∃ ranked : List (UserId × Nat),
      ranked.Perm
        (s.users.map (fun kv => (kv.1, (InMemoryStorage.getAllReferrals s kv.1).length))) ∧
      List.Pairwise (fun a b => reachLe a b = true) ranked ∧
      (∀ k : Int, k < 0 → topKByReach s k = .error msgKNonNegative) ∧
      (∀ k : Int, 0 ≤ k → topKByReach s k = .ok ((ranked.take k.toNat).map (·.1))) ∧
      (∀ k : Int, 0 ≤ k → s.users.length ≤ k.toNat →
        topKByReach s k = .ok (ranked.map (·.1))) ∧
      topKByReachDefault s = topKByReach s 5 := by
  have hwf := WFAny_of_reachableAny h
  have hperm : ((userReachPairs s).mergeSort reachLe).Perm
      (s.users.map (fun kv => (kv.1, (InMemoryStorage.getAllReferrals s kv.1).length))) :=
    (List.mergeSort_perm (userReachPairs s) reachLe).trans
      (by rw [userReachPairs_eq hwf])
  have hlenr : ((userReachPairs s).mergeSort reachLe).length = s.users.length := by
    rw [hperm.length_eq, List.length_map]
  have hok : ∀ k : Int, 0 ≤ k →
      topKByReach s k =
        .ok ((((userReachPairs s).mergeSort reachLe).take k.toNat).map (·.1)) := by
    intro k hk
    unfold topKByReach
    rw [if_neg (by omega)]
    by_cases hzero : k = 0 ∨ (InMemoryStorage.getAllUsers s).length = 0
    · rw [if_pos hzero]
      rcases hzero with rfl | hlen
      · simp
      · have husers : s.users = [] := by
          unfold InMemoryStorage.getAllUsers at hlen
          rw [List.length_map] at hlen
          exact List.eq_nil_of_length_eq_zero hlen
        have hpairs : userReachPairs s = [] := by
          rw [userReachPairs_eq hwf, husers]
          rfl
        rw [hpairs]
        simp
    · rw [if_neg hzero]
  refine ⟨(userReachPairs s).mergeSort reachLe, hperm,
    List.sorted_mergeSort reachLe_trans reachLe_total _, ?_, hok, ?_, rfl⟩
  · intro k hk
    unfold topKByReach
    rw [if_pos hk]
  · intro k hk hlen
    rw [hok k hk, List.take_of_length_le (by omega)]

theorem topKByReach_spec_witness :
    ∃ ranked : List (UserId × Nat),
      ranked.Perm
        (scenState4.users.map
          (fun kv => (kv.1, (InMemoryStorage.getAllReferrals scenState4 kv.1).length))) ∧
      List.Pairwise (fun a b => reachLe a b = true) ranked ∧
      (∀ k : Int, k < 0 → topKByReach scenState4 k = .error msgKNonNegative) ∧
      (∀ k : Int, 0 ≤ k →
        topKByReach scenState4 k = .ok ((ranked.take k.toNat).map (·.1))) ∧
      (∀ k : Int, 0 ≤ k → scenState4.users.length ≤ k.toNat →
        topKByReach scenState4 k = .ok (ranked.map (·.1))) ∧
      topKByReachDefault scenState4 = topKByReach scenState4 5 :=
  topKByReach_spec scenState4
    (ReachableCfg.step Config.default bobU eveU trivial
      (ReachableCfg.step Config.default bobU davidU trivial
        (ReachableCfg.step Config.default alice charlie trivial
          (ReachableCfg.step Config.default alice bobU trivial ReachableCfg.empty))))

/-! ## Network statistics (C8) -/

def cfgCyc : Config := { allowCycles := true }

def cycState : Storage :=
  (ReferralNetwork.addReferral cfgCyc
    (ReferralNetwork.addReferral cfgCyc Storage.empty uidA uidB).2 uidB uidA).2

/-- Counterexample to C8 as stated.  First, in the default configuration the
two successful calls `addReferral("a", "b:c")` and `addReferral("a:b", "c")`
collide on the referral key `a:b:c`, so `totalReferrals = 1` while the per-user
sum is `2`: `averageReferralsPerUser = 2/4 ≠ totalReferrals/totalUsers = 1/4`.
Second, in the reachable state with the two-cycle a→b→a (allowCycles), child
chains are unbounded — the five-node chain `[a,b,a,b,a]` exceeds
`maxDepth + 1 = 3` — so `maxDepth` is not the length of the longest
child-chain. -/
theorem stats_formulas_counterexample :
    ((ReferralNetwork.addReferral Config.default Storage.empty colA colBC).1 = none ∧
     (ReferralNetwork.addReferral Config.default collideState1 colAB colC).1 = none ∧
     (InMemoryStorage.getNetworkStats collideState2).averageReferralsPerUser ≠
       ((InMemoryStorage.getNetworkStats collideState2).totalReferrals : ℚ) /
         ((InMemoryStorage.getNetworkStats collideState2).totalUsers : ℚ)) ∧
    (ReachableAny cycState ∧
     EdgeChain cycState [uidA, uidB, uidA, uidB, uidA] ∧
     ([uidA, uidB, uidA, uidB, uidA] : List UserId).length >
       (InMemoryStorage.getNetworkStats cycState).maxDepth + 1) := by
  refine ⟨⟨by decide, by decide, ?_⟩, ?_, by decide, ?_⟩
  · have h1 : (InMemoryStorage.getNetworkStats collideState2).totalReferrals = 1 := by decide
    have h2 : (InMemoryStorage.getNetworkStats collideState2).totalUsers = 4 := by decide
    have h3 : (InMemoryStorage.getNetworkStats collideState2).averageReferralsPerUser =
        ((2 : Nat) : ℚ) / ((4 : Nat) : ℚ) := rfl
    rw [h1, h2, h3]
    norm_num
  · exact ReachableCfg.step cfgCyc uidB uidA trivial
      (ReachableCfg.step cfgCyc uidA uidB trivial ReachableCfg.empty)
  · have : (InMemoryStorage.getNetworkStats cycState).maxDepth = 2 := by decide
    rw [this]
    decide

theorem same_key_eq {β : Type} {l : List (UserId × β)} (hnd : (l.map (·.1)).Nodup)
    {kv₁ kv₂ : UserId × β} (h₁ : kv₁ ∈ l) (h₂ : kv₂ ∈ l) (hk : kv₁.1 = kv₂.1) :
    kv₁ = kv₂ := by
  induction l with
  | nil => cases h₁
  | cons hd tl ih =>
      simp only [List.map_cons, List.nodup_cons] at hnd
      rcases List.mem_cons.mp h₁ with rfl | h₁'
      · rcases List.mem_cons.mp h₂ with rfl | h₂'
        · rfl
        · exact absurd (List.mem_map.mpr ⟨kv₂, h₂', hk.symm⟩) hnd.1
      · rcases List.mem_cons.mp h₂ with rfl | h₂'
        · exact absurd (List.mem_map.mpr ⟨kv₁, h₁', hk⟩) hnd.1
        · exact ih hnd.2 h₁' h₂'

/-- Structural edge list: one pair per entry of a `directReferrals` list. -/
def edgeList (s : Storage) : List (UserId × UserId) :=
  s.users.flatMap (fun kv => kv.2.directReferrals.map (fun c => (kv.1, c)))

/-- Recorded pair list: one pair per entry of the referrals map. -/
def refPairs (s : Storage) : List (UserId × UserId) :=
  s.referrals.map (fun kv => (kv.2.referrer, kv.2.candidate))

theorem edgeList_length (s : Storage) : (edgeList s).length = totalChildren s := by
  unfold edgeList totalChildren
  rw [List.length_flatMap]
  congr 1
  apply List.map_congr_left
  intro kv _
  simp

theorem flatMap_pairs_nodup :
    ∀ (l : List (UserId × UserNode)),
      (l.map (·.1)).Nodup → (∀ kv ∈ l, kv.2.directReferrals.Nodup) →
      (l.flatMap (fun kv => kv.2.directReferrals.map (fun c => (kv.1, c)))).Nodup := by
  intro l
  induction l with
  | nil => intro _ _; exact List.nodup_nil
  | cons kv tl ih =>
      intro hnd hch
      simp only [List.map_cons, List.nodup_cons] at hnd
      rw [List.flatMap_cons, List.nodup_append]
      refine ⟨?_, ih hnd.2 (fun kv' h' => hch kv' (List.mem_cons_of_mem _ h')), ?_⟩
      · exact (hch kv (List.mem_cons_self _ _)).map
          (fun c₁ c₂ h => (Prod.mk.inj h).2)
      · intro p hp₁ hp₂
        obtain ⟨c, -, rfl⟩ := List.mem_map.mp hp₁
        obtain ⟨kv', hkv', hmem'⟩ := List.mem_flatMap.mp hp₂
        obtain ⟨c', -, heq⟩ := List.mem_map.mp hmem'
        have : kv'.1 = kv.1 := (Prod.mk.inj heq).1
        exact hnd.1 (List.mem_map.mpr ⟨kv', hkv', this⟩)

theorem edgeList_nodup {s : Storage} (hwf : WFAny s) : (edgeList s).Nodup := by
  apply flatMap_pairs_nodup s.users hwf.keysNodup
  intro kv hkv
  exact hwf.childNodup kv.1 kv.2 (mem_mget hwf.keysNodup hkv)

theorem refPairs_nodup {s : Storage} (hwf : WFAny s) : (refPairs s).Nodup := by
  unfold refPairs
  have hbase : s.referrals.Nodup := hwf.refKeysNodup.of_map
  apply List.Nodup.map_on ?_ hbase
  intro kv₁ h₁ kv₂ h₂ heq
  apply same_key_eq hwf.refKeysNodup h₁ h₂
  rw [hwf.keyMatches kv₁ h₁, hwf.keyMatches kv₂ h₂]
  rw [(Prod.mk.inj heq).1, (Prod.mk.inj heq).2]

theorem mem_edgeList_iff {s : Storage} (hwf : WFAny s) {x y : UserId} :
    (x, y) ∈ edgeList s ↔ Edge s x y := by
  unfold edgeList
  constructor
  · intro h
    obtain ⟨kv, hkv, hmem⟩ := List.mem_flatMap.mp h
    obtain ⟨c, hc, heq⟩ := List.mem_map.mp hmem
    obtain ⟨h1, h2⟩ := Prod.mk.inj heq
    unfold Edge children InMemoryStorage.getDirectReferrals
    have : mget s.users x = some kv.2 := by
      rw [← h1]
      exact mem_mget hwf.keysNodup (by
        obtain ⟨k, v⟩ := kv
        exact hkv)
    rw [this]
    exact h2 ▸ hc
  · intro h
    obtain ⟨n, hn, hy⟩ := children_mem_of_mget s h
    exact List.mem_flatMap.mpr ⟨(x, n), mget_mem hn, List.mem_map.mpr ⟨y, hy, rfl⟩⟩

theorem mem_refPairs_iff {s : Storage} (h : ReachableDefault s) (hnc : NoColonIds s)
    (hwf : WFAny s) {x y : UserId} :
    (x, y) ∈ refPairs s ↔ Edge s x y := by
  unfold refPairs
  constructor
  · intro hmem
    obtain ⟨kv, hkv, heq⟩ := List.mem_map.mp hmem
    have := hwf.recSub kv hkv
    rw [(Prod.mk.inj heq).1, (Prod.mk.inj heq).2] at this
    exact this
  · intro he
    have := edgeRec_of_reachable h hnc x y he
    exact List.mem_map.mpr ⟨(x ++ ":" ++ y, ⟨x, y⟩), mget_mem this, rfl⟩

theorem totalChildren_eq_referrals {s : Storage} (h : ReachableDefault s)
    (hnc : NoColonIds s) : totalChildren s = s.referrals.length := by
  have hwf := (WFDefault_of_reachableDefault h).toWFAny
  have hmem : ∀ p : UserId × UserId, p ∈ edgeList s ↔ p ∈ refPairs s := by
    intro ⟨x, y⟩
    rw [mem_edgeList_iff hwf, mem_refPairs_iff h hnc hwf]
  have hfs : (edgeList s).toFinset = (refPairs s).toFinset := by
    ext p
    rw [List.mem_toFinset, List.mem_toFinset]
    exact hmem p
  have hlen : (edgeList s).length = (refPairs s).length := by
    rw [← List.toFinset_card_of_nodup (edgeList_nodup hwf),
      ← List.toFinset_card_of_nodup (refPairs_nodup hwf), hfs]
  rw [← edgeList_length, hlen]
  unfold refPairs
  rw [List.length_map]

theorem edgeChain_cons_cons {s : Storage} {a b : UserId} {l : List UserId} :
    EdgeChain s (a :: b :: l) ↔ Edge s a b ∧ EdgeChain s (b :: l) := Iff.rfl

theorem edgeChain_single {s : Storage} (a : UserId) : EdgeChain s [a] := trivial

theorem depthAux_succ_none {s : Storage} {F : Nat} {vis : List UserId} {cur : UserId}
    (hcur : cur ∉ vis) (hget : mget s.users cur = none) :
    depthAux s (F + 1) vis cur = (0, cur :: vis) := by
  rw [depthAux, if_neg hcur, hget]

theorem depthAux_succ_some {s : Storage} {F : Nat} {vis : List UserId} {cur : UserId}
    {node : UserNode} (hcur : cur ∉ vis) (hget : mget s.users cur = some node) :
    depthAux s (F + 1) vis cur =
      if node.directReferrals.isEmpty then ((0 : Nat), cur :: vis)
      else
        let r := node.directReferrals.foldl
          (fun st child =>
            let r := depthAux s F st.2 child
            (max st.1 r.1, r.2)) ((0 : Nat), cur :: vis)
        (1 + r.1, r.2) := by
  rw [depthAux, if_neg hcur, hget]

theorem depthAux_spec {s : Storage} (hwf : WFDefault s) :
    ∀ (fuel : Nat) (vis : List UserId) (cur : UserId),
      ((usersF s) \ vis.toFinset).card + 1 < fuel →
      (∀ x, Reach s cur x → x ∉ vis) →
      (∃ l, EdgeChain s (cur :: l) ∧ l.length = (depthAux s fuel vis cur).1) ∧
      (∀ l, EdgeChain s (cur :: l) → l.length ≤ (depthAux s fuel vis cur).1) ∧
      (∀ x ∈ (depthAux s fuel vis cur).2, x ∈ vis ∨ Reach s cur x) ∧
      (∀ x ∈ vis, x ∈ (depthAux s fuel vis cur).2) := by
  intro fuel
  induction fuel with
  | zero => intro vis cur hm _; omega
  | succ F ih =>
      intro vis cur hm hdis
      have hcur : cur ∉ vis := hdis cur (.refl cur)
      cases hget : mget s.users cur with
      | none =>
          rw [depthAux_succ_none hcur hget]
          have hch : children s cur = [] := by
            unfold children InMemoryStorage.getDirectReferrals
            rw [hget]
          refine ⟨⟨[], edgeChain_single cur, rfl⟩, ?_, ?_, ?_⟩
          · intro l hl
            cases l with
            | nil => simp
            | cons c l' =>
                rw [edgeChain_cons_cons] at hl
                unfold Edge at hl
                rw [hch] at hl
                cases hl.1
          · intro x hx
            rcases List.mem_cons.mp hx with rfl | hx'
            · exact .inr (.refl x)
            · exact .inl hx'
          · intro x hx
            exact List.mem_cons_of_mem _ hx
      | some node =>
          rw [depthAux_succ_some hcur hget]
          have hchildren : children s cur = node.directReferrals :=
            children_eq_of_mget s hget
          have hcurF : cur ∈ usersF s := mem_usersF_of_mget (by simp [hget])
          cases hempt : node.directReferrals.isEmpty with
          | true =>
              have hch : children s cur = [] := by
                rw [hchildren]
                exact List.isEmpty_iff.mp hempt
              rw [if_pos rfl]
              refine ⟨⟨[], edgeChain_single cur, rfl⟩, ?_, ?_, ?_⟩
              · intro l hl
                cases l with
                | nil => simp
                | cons c l' =>
                    rw [edgeChain_cons_cons] at hl
                    unfold Edge at hl
                    rw [hch] at hl
                    cases hl.1
              · intro x hx
                rcases List.mem_cons.mp hx with rfl | hx'
                · exact .inr (.refl x)
                · exact .inl hx'
              · intro x hx
                exact List.mem_cons_of_mem _ hx
          | false =>
              rw [if_neg (by simp)]
              have inner : ∀ (cs : List UserId), (∀ c ∈ cs, Edge s cur c) → cs.Nodup →
                  ∀ (acc : Nat) (visAcc : List UserId),
                  (∀ x, (∃ c ∈ cs, Reach s c x) → x ∉ visAcc) →
                  (∀ x ∈ visAcc, x ∈ vis ∨ Reach s cur x) →
                  cur ∈ visAcc →
                  (∀ x ∈ vis, x ∈ visAcc) →
                  ∃ d vis',
                    cs.foldl (fun st child =>
                      let r := depthAux s F st.2 child
                      (max st.1 r.1, r.2)) (acc, visAcc) = (d, vis') ∧
                    acc ≤ d ∧
                    (d = acc ∨ ∃ c ∈ cs, ∃ l, EdgeChain s (c :: l) ∧ l.length = d) ∧
                    (∀ c ∈ cs, ∀ l, EdgeChain s (c :: l) → l.length ≤ d) ∧
                    (∀ x ∈ vis', x ∈ visAcc ∨ ∃ c ∈ cs, Reach s c x) ∧
                    (∀ x ∈ visAcc, x ∈ vis') := by
                intro cs
                induction cs with
                | nil =>
                    intro _ _ acc visAcc _ _ _ _
                    exact ⟨acc, visAcc, rfl, le_refl acc, .inl rfl, by simp,
                      fun x hx => .inl hx, fun x hx => hx⟩
                | cons c₁ cs' ihcs =>
                    intro hedges hnodup acc visAcc hIA hIB hIC hID
                    have he₁ : Edge s cur c₁ := hedges c₁ (List.mem_cons_self _ _)
                    have hfuel₁ : ((usersF s) \ visAcc.toFinset).card + 1 < F := by
                      have hsub : (usersF s) \ visAcc.toFinset ⊆
                          ((usersF s) \ vis.toFinset).erase cur := by
                        intro x hx
                        rw [Finset.mem_sdiff, List.mem_toFinset] at hx
                        rw [Finset.mem_erase, Finset.mem_sdiff, List.mem_toFinset]
                        refine ⟨?_, hx.1, fun hxv => hx.2 (hID x hxv)⟩
                        intro hxc
                        exact hx.2 (hxc ▸ hIC)
                      have hcurmem : cur ∈ (usersF s) \ vis.toFinset := by
                        rw [Finset.mem_sdiff, List.mem_toFinset]
                        exact ⟨hcurF, hcur⟩
                      have hle := Finset.card_le_card hsub
                      rw [Finset.card_erase_of_mem hcurmem] at hle
                      have hpos : 0 < ((usersF s) \ vis.toFinset).card :=
                        Finset.card_pos.mpr ⟨cur, hcurmem⟩
                      omega
                    obtain ⟨hatt₁, hupper₁, hvsub₁, hvmono₁⟩ :=
                      ih visAcc c₁ hfuel₁
                        (fun x hx => hIA x ⟨c₁, List.mem_cons_self _ _, hx⟩)
                    simp only [List.nodup_cons] at hnodup
                    obtain ⟨d, vis', heq₂, hacc₂, hatt₂, hupper₂, hvsub₂, hvmono₂⟩ :=
                      ihcs (fun c hc => hedges c (List.mem_cons_of_mem _ hc)) hnodup.2
                        (max acc (depthAux s F visAcc c₁).1) (depthAux s F visAcc c₁).2
                        (by
                          intro x ⟨c, hc, hcx⟩ hxvis₁
                          have hcc₁ : c ≠ c₁ := fun h => hnodup.1 (h ▸ hc)
                          rcases hvsub₁ x hxvis₁ with hxacc | hxr₁
                          · exact hIA x ⟨c, List.mem_cons_of_mem _ hc, hcx⟩ hxacc
                          · exact sibling_disjoint hwf hcc₁
                              (hedges c (List.mem_cons_of_mem _ hc)) he₁ x hcx hxr₁)
                        (by
                          intro x hx
                          rcases hvsub₁ x hx with hxacc | hxr₁
                          · exact hIB x hxacc
                          · exact .inr (.step he₁ hxr₁))
                        (hvmono₁ cur hIC)
                        (fun x hx => hvmono₁ x (hID x hx))
                    refine ⟨d, vis', ?_, ?_, ?_, ?_, ?_, ?_⟩
                    · rw [List.foldl_cons]
                      exact heq₂
                    · exact le_trans (le_max_left _ _) hacc₂
                    · rcases hatt₂ with hda | ⟨c, hc, l, hchain, hlen⟩
                      · rcases Nat.le_total (depthAux s F visAcc c₁).1 acc with hle | hle
                        · rw [hda, max_eq_left hle]
                          exact .inl rfl
                        · rw [hda, max_eq_right hle]
                          obtain ⟨l₁, hchain₁, hlen₁⟩ := hatt₁
                          exact .inr ⟨c₁, List.mem_cons_self _ _, l₁, hchain₁, hlen₁⟩
                      · exact .inr ⟨c, List.mem_cons_of_mem _ hc, l, hchain, hlen⟩
                    · intro c hc l hchain
                      rcases List.mem_cons.mp hc with rfl | hc'
                      · exact le_trans (hupper₁ l hchain)
                          (le_trans (le_max_right acc _) hacc₂)
                      · exact hupper₂ c hc' l hchain
                    · intro x hx
                      rcases hvsub₂ x hx with hx₁ | ⟨c, hc, hcx⟩
                      · rcases hvsub₁ x hx₁ with hxacc | hxr
                        · exact .inl hxacc
                        · exact .inr ⟨c₁, List.mem_cons_self _ _, hxr⟩
                      · exact .inr ⟨c, List.mem_cons_of_mem _ hc, hcx⟩
                    · intro x hx
                      exact hvmono₂ x (hvmono₁ x hx)
              have hIA₀ : ∀ x, (∃ c ∈ node.directReferrals, Reach s c x) → x ∉ cur :: vis := by
                rintro x ⟨c, hc, hcx⟩ hx
                have hedge : Edge s cur c := by
                  unfold Edge
                  rw [hchildren]
                  exact hc
                rcases List.mem_cons.mp hx with rfl | hx'
                · exact hwf.acyclic x ⟨c, hedge, hcx⟩
                · exact hdis x (.step hedge hcx) hx'
              obtain ⟨d, vis', heq, hacc, hatt, hupper, hvsub, hvmono⟩ :=
                inner node.directReferrals
                  (fun c hc => by
                    unfold Edge
                    rw [hchildren]
                    exact hc)
                  (hwf.childNodup cur node hget)
                  0 (cur :: vis) hIA₀
                  (by
                    intro x hx
                    rcases List.mem_cons.mp hx with rfl | hx'
                    · exact .inr (.refl x)
                    · exact .inl hx')
                  (List.mem_cons_self _ _)
                  (fun x hx => List.mem_cons_of_mem _ hx)
              rw [heq]
              refine ⟨?_, ?_, ?_, ?_⟩
              · rcases hatt with rfl | ⟨c, hc, l, hchain, hlen⟩
                · obtain ⟨c₀, cs₀, hcs₀⟩ : ∃ c₀ cs₀, node.directReferrals = c₀ :: cs₀ := by
                    cases hcs : node.directReferrals with
                    | nil => rw [hcs] at hempt; cases hempt
                    | cons c₀ cs₀ => exact ⟨c₀, cs₀, rfl⟩
                  refine ⟨[c₀], ?_, rfl⟩
                  rw [edgeChain_cons_cons]
                  refine ⟨?_, edgeChain_single c₀⟩
                  unfold Edge
                  rw [hchildren, hcs₀]
                  exact List.mem_cons_self _ _
                · refine ⟨c :: l, ?_, by simp [hlen, Nat.add_comm]⟩
                  rw [edgeChain_cons_cons]
                  exact ⟨by unfold Edge; rw [hchildren]; exact hc, hchain⟩
              · intro l hl
                cases l with
                | nil => simp
                | cons c l' =>
                    rw [edgeChain_cons_cons] at hl
                    have hc : c ∈ node.directReferrals := by
                      have := hl.1
                      unfold Edge at this
                      rw [hchildren] at this
                      exact this
                    have := hupper c hc l' hl.2
                    simp
                    omega
              · intro x hx
                rcases hvsub x hx with hx' | ⟨c, hc, hcx⟩
                · rcases List.mem_cons.mp hx' with rfl | hx''
                  · exact .inr (.refl x)
                  · exact .inl hx''
                · refine .inr (.step ?_ hcx)
                  unfold Edge
                  rw [hchildren]
                  exact hc
              · intro x hx
                exact hvmono x (List.mem_cons_of_mem _ hx)

theorem calculateDepth_spec {s : Storage} (hwf : WFDefault s) (u : UserId) :
    (∃ l, EdgeChain s (u :: l) ∧ l.length = InMemoryStorage.calculateDepth s u) ∧
    (∀ l, EdgeChain s (u :: l) → l.length ≤ InMemoryStorage.calculateDepth s u) := by
  have hfuel : ((usersF s) \ ([] : List UserId).toFinset).card + 1 < s.users.length + 2 := by
    have := usersF_card_le s
    simp only [List.toFinset_nil, Finset.sdiff_empty]
    omega
  obtain ⟨hatt, hupper, -, -⟩ := depthAux_spec hwf (s.users.length + 2) [] u hfuel (by simp)
  exact ⟨hatt, hupper⟩

theorem foldl_max_spec {α : Type} (f : α → Nat) :
    ∀ (l : List α) (i : Nat),
      i ≤ l.foldl (fun a x => max a (f x)) i ∧
      (∀ x ∈ l, f x ≤ l.foldl (fun a x => max a (f x)) i) ∧
      (l.foldl (fun a x => max a (f x)) i = i ∨
        ∃ x ∈ l, l.foldl (fun a x => max a (f x)) i = f x) := by
  intro l
  induction l with
  | nil => intro i; exact ⟨le_refl i, by simp, .inl rfl⟩
  | cons x xs ih =>
      intro i
      rw [List.foldl_cons]
      obtain ⟨h1, h2, h3⟩ := ih (max i (f x))
      refine ⟨le_trans (le_max_left _ _) h1, ?_, ?_⟩
      · intro y hy
        rcases List.mem_cons.mp hy with rfl | hy'
        · exact le_trans (le_max_right i (f y)) h1
        · exact h2 y hy'
      · rcases h3 with heq | ⟨y, hy, heq⟩
        · rcases Nat.le_total (f x) i with hle | hle
          · rw [heq, max_eq_left hle]
            exact .inl rfl
          · rw [heq, max_eq_right hle]
            exact .inr ⟨x, List.mem_cons_self _ _, rfl⟩
        · exact .inr ⟨y, List.mem_cons_of_mem _ hy, heq⟩

theorem stats_maxDepth_def (s : Storage) :
    (InMemoryStorage.getNetworkStats s).maxDepth =
      s.users.foldl (fun acc kv => max acc (InMemoryStorage.calculateDepth s kv.2.userId)) 0 := rfl

/-- Amended claim C8: for every state reachable under the default
configuration whose user ids contain no `':'`, `getNetworkStats` returns
`maxDepth` equal to the number of edges of the longest child-chain (`0`
when there are no edges, since the empty/singleton chain is the longest),
and `averageReferralsPerUser` equal to `totalReferrals / totalUsers`
(`0` when `totalUsers` is `0`).  Without the restrictions the claim fails,
see the counterexample. -/
theorem stats_formulas (s : Storage) (h : ReachableDefault s) (hnc : NoColonIds s) :
    ((InMemoryStorage.getNetworkStats s).averageReferralsPerUser =
      if (InMemoryStorage.getNetworkStats s).totalUsers = 0 then 0
      else ((InMemoryStorage.getNetworkStats s).totalReferrals : ℚ) /
        ((InMemoryStorage.getNetworkStats s).totalUsers : ℚ)) ∧
    (∀ l, EdgeChain s l → l.length ≤ (InMemoryStorage.getNetworkStats s).maxDepth + 1) ∧
    (∃ l, EdgeChain s l ∧ l.length = (InMemoryStorage.getNetworkStats s).maxDepth + 1) := by
  have hwf := WFDefault_of_reachableDefault h
  refine ⟨?_, ?_, ?_⟩
  · have havg : (InMemoryStorage.getNetworkStats s).averageReferralsPerUser =
        if s.users.length > 0 then ((totalChildren s : Nat) : ℚ) / ((s.users.length : Nat) : ℚ)
        else 0 := rfl
    have htu : (InMemoryStorage.getNetworkStats s).totalUsers = s.users.length := rfl
    have htr : (InMemoryStorage.getNetworkStats s).totalReferrals = s.referrals.length := rfl
    rw [havg, htu, htr, totalChildren_eq_referrals h hnc]
    by_cases hzero : s.users.length = 0
    · simp [hzero]
    · have : s.users.length > 0 := Nat.pos_of_ne_zero hzero
      simp [hzero, this]
  · intro l hl
    cases l with
    | nil => simp
    | cons x l' =>
        cases l' with
        | nil => simp
        | cons y rest =>
            rw [edgeChain_cons_cons] at hl
            obtain ⟨n, hn, -⟩ := children_mem_of_mget s hl.1
            have hkv : (x, n) ∈ s.users := mget_mem hn
            have huid : n.userId = x := hwf.userIdEq x n hn
            have hd := (calculateDepth_spec hwf x).2 (y :: rest) (by
              rw [edgeChain_cons_cons]
              exact hl)
            rw [stats_maxDepth_def]
            obtain ⟨-, h2, -⟩ := foldl_max_spec
              (fun kv : UserId × UserNode => InMemoryStorage.calculateDepth s kv.2.userId)
              s.users 0
            have := h2 (x, n) hkv
            simp only [huid] at this
            simp only [List.length_cons] at hd ⊢
            omega
  · rw [stats_maxDepth_def]
    obtain ⟨-, -, h3⟩ := foldl_max_spec
      (fun kv : UserId × UserNode => InMemoryStorage.calculateDepth s kv.2.userId)
      s.users 0
    rcases h3 with heq | ⟨kv, hkv, heq⟩
    · rw [heq]
      exact ⟨[uidA], edgeChain_single uidA, rfl⟩
    · rw [heq]
      obtain ⟨l, hchain, hlen⟩ := (calculateDepth_spec hwf kv.2.userId).1
      exact ⟨kv.2.userId :: l, hchain, by simp [hlen]⟩

/-- Witness for the amended C8 at the concrete four-call scenario state. -/
theorem stats_formulas_witness :
    ((InMemoryStorage.getNetworkStats scenState4).averageReferralsPerUser =
      if (InMemoryStorage.getNetworkStats scenState4).totalUsers = 0 then 0
      else ((InMemoryStorage.getNetworkStats scenState4).totalReferrals : ℚ) /
        ((InMemoryStorage.getNetworkStats scenState4).totalUsers : ℚ)) ∧
    (∀ l, EdgeChain scenState4 l →
      l.length ≤ (InMemoryStorage.getNetworkStats scenState4).maxDepth + 1) ∧
    (∃ l, EdgeChain scenState4 l ∧
      l.length = (InMemoryStorage.getNetworkStats scenState4).maxDepth + 1) :=
  stats_formulas scenState4
    (ReachableCfg.step Config.default bobU eveU rfl
      (ReachableCfg.step Config.default bobU davidU rfl
        (ReachableCfg.step Config.default alice charlie rfl
          (ReachableCfg.step Config.default alice bobU rfl ReachableCfg.empty))))
    (by decide)

/-! ## Shortest-path correctness of `findShortestPath` (C9) -/

theorem edgeChain_append_edge {s : Storage} :
    ∀ {P : List UserId} {u c : UserId}, EdgeChain s P → P.getLast? = some u →
      Edge s u c → EdgeChain s (P ++ [c]) := by
  intro P
  induction P with
  | nil => intro u c _ hlast _; cases hlast
  | cons x rest ih =>
      intro u c hchain hlast he
      cases rest with
      | nil =>
          simp at hlast
          subst hlast
          exact ⟨he, trivial⟩
      | cons y rest' =>
          rw [edgeChain_cons_cons] at hchain
          have hlast' : (y :: rest').getLast? = some u := by
            rw [List.getLast?_cons_cons] at hlast
            exact hlast
          exact ⟨hchain.1, ih hchain.2 hlast' he⟩

theorem edgeChain_get_edge {s : Storage} :
    ∀ (P : List UserId), EdgeChain s P → ∀ (j : Nat) (h : j + 1 < P.length),
      Edge s (P.get ⟨j, Nat.lt_of_succ_lt h⟩) (P.get ⟨j + 1, h⟩) := by
  intro P
  induction P with
  | nil => intro _ j h; simp at h
  | cons x rest ih =>
      intro hchain j h
      cases rest with
      | nil => simp at h
      | cons y rest' =>
          rw [edgeChain_cons_cons] at hchain
          cases j with
          | zero => exact hchain.1
          | succ j' =>
              have h' : j' + 1 < (y :: rest').length := by
                simpa using h
              exact ih hchain.2 j' h'

theorem edgeChain_tail {s : Storage} {x : UserId} {rest : List UserId}
    (h : EdgeChain s (x :: rest)) : EdgeChain s rest := by
  cases rest with
  | nil => trivial
  | cons y rest' => exact (edgeChain_cons_cons.mp h).2

theorem mem_dropLast_edge {s : Storage} {u : UserId} :
    ∀ (P : List UserId), EdgeChain s P → u ∈ P.dropLast → ∃ y, Edge s u y := by
  intro P
  induction P with
  | nil => intro _ h; cases h
  | cons x rest ih =>
      intro hchain hmem
      cases rest with
      | nil => cases hmem
      | cons y rest' =>
          rw [edgeChain_cons_cons] at hchain
          rw [List.dropLast_cons_of_ne_nil (by simp)] at hmem
          rcases List.mem_cons.mp hmem with rfl | hmem'
          · exact ⟨y, hchain.1⟩
          · exact ih hchain.2 hmem'

/-- Specification of the inner scan of `findShortestPath` in the found case. -/
theorem fspScan_error {tgt : UserId} {p : List UserId} :
    ∀ {cs vis acc found}, fspScan tgt p cs vis acc = .error found →
      found = p ++ [tgt] ∧ tgt ∈ cs := by
  intro cs
  induction cs with
  | nil => intro vis acc found h; simp [fspScan] at h
  | cons child cs' ih =>
      intro vis acc found h
      by_cases hc : child = tgt
      · subst hc
        rw [fspScan, if_pos rfl] at h
        cases h
        exact ⟨rfl, List.mem_cons_self _ _⟩
      · rw [fspScan, if_neg hc] at h
        by_cases hv : child ∈ vis
        · rw [if_pos hv] at h
          obtain ⟨h1, h2⟩ := ih h
          exact ⟨h1, List.mem_cons_of_mem _ h2⟩
        · rw [if_neg hv] at h
          obtain ⟨h1, h2⟩ := ih h
          exact ⟨h1, List.mem_cons_of_mem _ h2⟩

/-- Specification of the inner scan of `findShortestPath` in the no-find
case. -/
theorem fspScan_ok {tgt : UserId} {p : List UserId} :
    ∀ {cs vis acc vis' acc'}, fspScan tgt p cs vis acc = .ok (vis', acc') →
      (∀ x ∈ cs, x ≠ tgt) ∧
      (∀ x ∈ vis, x ∈ vis') ∧
      (∀ x ∈ cs, x ∈ vis') ∧
      (∀ x ∈ vis', x ∈ vis ∨ (x, p ++ [x]) ∈ acc') ∧
      (∀ e ∈ acc', e ∈ acc ∨ ∃ c ∈ cs, e = (c, p ++ [c])) ∧
      (∀ e ∈ acc, e ∈ acc') ∧
      (∀ x ∈ cs, x ∉ vis → (x, p ++ [x]) ∈ acc') := by
  intro cs
  induction cs with
  | nil =>
      intro vis acc vis' acc' h
      simp [fspScan] at h
      obtain ⟨rfl, rfl⟩ := h
      exact ⟨by simp, fun x hx => hx, by simp, fun x hx => .inl hx,
        fun e he => .inl he, fun e he => he, by simp⟩
  | cons child cs' ih =>
      intro vis acc vis' acc' h
      by_cases hc : child = tgt
      · rw [fspScan, if_pos hc] at h; cases h
      · rw [fspScan, if_neg hc] at h
        by_cases hv : child ∈ vis
        · rw [if_pos hv] at h
          obtain ⟨h1, h2, h3, h4, h5, h6, h7⟩ := ih h
          refine ⟨?_, h2, ?_, h4, ?_, h6, ?_⟩
          · intro x hx
            rcases List.mem_cons.mp hx with rfl | hx'
            · exact hc
            · exact h1 x hx'
          · intro x hx
            rcases List.mem_cons.mp hx with rfl | hx'
            · exact h2 _ hv
            · exact h3 x hx'
          · intro e he
            rcases h5 e he with h' | ⟨c, hc', he'⟩
            · exact .inl h'
            · exact .inr ⟨c, List.mem_cons_of_mem _ hc', he'⟩
          · intro x hx hxv
            rcases List.mem_cons.mp hx with rfl | hx'
            · exact absurd hv hxv
            · exact h7 x hx' hxv
        · rw [if_neg hv] at h
          obtain ⟨h1, h2, h3, h4, h5, h6, h7⟩ := ih h
          refine ⟨?_, fun x hx => h2 _ (List.mem_cons_of_mem _ hx), ?_, ?_, ?_, ?_, ?_⟩
          · intro x hx
            rcases List.mem_cons.mp hx with rfl | hx'
            · exact hc
            · exact h1 x hx'
          · intro x hx
            rcases List.mem_cons.mp hx with rfl | hx'
            · exact h2 _ (List.mem_cons_self _ _)
            · exact h3 x hx'
          · intro x hx
            rcases h4 x hx with h' | h'
            · rcases List.mem_cons.mp h' with rfl | h''
              · exact .inr (h6 _ (List.mem_append_right _ (by simp)))
              · exact .inl h''
            · exact .inr h'
          · intro e he
            rcases h5 e he with h' | ⟨c, hc', he'⟩
            · rcases List.mem_append.mp h' with h'' | h''
              · exact .inl h''
              · rw [List.mem_singleton] at h''
                exact .inr ⟨child, List.mem_cons_self _ _, h''⟩
            · exact .inr ⟨c, List.mem_cons_of_mem _ hc', he'⟩
          · intro e he
            exact h6 _ (List.mem_append_left _ he)
          · intro x hx hxv
            rcases List.mem_cons.mp hx with rfl | hx'
            · exact h6 _ (List.mem_append_right _ (by simp))
            · by_cases hxc : x = child
              · subst hxc
                exact h6 _ (List.mem_append_right _ (by simp))
              · exact h7 x hx' (by
                  intro hmem
                  rcases List.mem_cons.mp hmem with h'' | h''
                  · exact hxc h''
                  · exact hxv h'')

/-- Default element used with `List.getD` when indexing into paths. -/
def blankId : UserId := ""

/-- A valid chain from `src` to `tgt` along structural child edges. -/
def STChain (s : Storage) (src tgt : UserId) (P : List UserId) : Prop :=
  EdgeChain s P ∧ P.head? = some src ∧ P.getLast? = some tgt

theorem mem_of_head {α : Type} {l : List α} {x : α} (h : l.head? = some x) : x ∈ l := by
  cases l with
  | nil => simp at h
  | cons a t =>
      simp at h
      subst h
      exact List.mem_cons_self _ _

theorem head?_append_left {α : Type} {l : List α} (h : l ≠ []) (t : List α) :
    (l ++ t).head? = l.head? := by
  cases l with
  | nil => exact absurd rfl h
  | cons a l' => rfl

theorem getLast?_append_single {α : Type} : ∀ (l : List α) (a : α), (l ++ [a]).getLast? = some a := by
  intro l a
  induction l with
  | nil => rfl
  | cons x t ih =>
      cases t with
      | nil => rfl
      | cons y t' =>
          rw [List.cons_append, List.cons_append, List.getLast?_cons_cons]
          exact ih

theorem getD_zero_of_head {α : Type} (d : α) {l : List α} {x : α} (h : l.head? = some x) :
    l.getD 0 d = x := by
  cases l with
  | nil => simp at h
  | cons a t =>
      simp at h
      subst h
      rfl

theorem getD_last_of_getLast {α : Type} (d : α) :
    ∀ {l : List α} {x : α}, l.getLast? = some x → l.getD (l.length - 1) d = x := by
  intro l
  induction l with
  | nil => intro x h; simp at h
  | cons a t ih =>
      intro x h
      cases t with
      | nil =>
          simp at h
          subst h
          rfl
      | cons b t' =>
          rw [List.getLast?_cons_cons] at h
          have hidx : (a :: b :: t').length - 1 = ((b :: t').length - 1) + 1 := by
            simp only [List.length_cons]
            omega
          rw [hidx]
          exact ih h

theorem edgeChain_getD_edge {s : Storage} (d : UserId) :
    ∀ (P : List UserId), EdgeChain s P → ∀ (j : Nat), j + 1 < P.length →
      Edge s (P.getD j d) (P.getD (j + 1) d) := by
  intro P
  induction P with
  | nil => intro _ j h; simp at h
  | cons x rest ih =>
      intro hchain j h
      cases rest with
      | nil => simp at h
      | cons y rest' =>
          rw [edgeChain_cons_cons] at hchain
          cases j with
          | zero => exact hchain.1
          | succ j' =>
              have h' : j' + 1 < (y :: rest').length := by
                simpa using h
              exact ih hchain.2 j' h'

theorem pairwise_of_mem {α : Type} {R : α → α → Prop} :
    ∀ (l : List α), (∀ a ∈ l, ∀ b ∈ l, R a b) → l.Pairwise R := by
  intro l
  induction l with
  | nil => intro _; exact List.Pairwise.nil
  | cons a t ih =>
      intro h
      exact List.Pairwise.cons
        (fun b hb => h a (List.mem_cons_self _ _) b (List.mem_cons_of_mem _ hb))
        (ih fun x hx y hy => h x (List.mem_cons_of_mem _ hx) y (List.mem_cons_of_mem _ hy))

theorem mem_tail_dropLast {α : Type} {u : α} :
    ∀ {P : List α}, u ∈ P.tail.dropLast → u ∈ P.dropLast := by
  intro P h
  cases P with
  | nil => simpa using h
  | cons x rest =>
      cases rest with
      | nil => simp at h
      | cons y rest' =>
          rw [List.dropLast_cons_of_ne_nil (by simp)]
          exact List.mem_cons_of_mem _ h

theorem fspAux_succ (s : Storage) (tgt : UserId) (fuel : Nat) (vis : List UserId)
    (cur : UserId) (p : List UserId) (rest : List (UserId × List UserId)) :
    fspAux s tgt (fuel + 1) vis ((cur, p) :: rest) =
      if !isValidUserId cur then fspAux s tgt fuel vis rest
      else
        match fspScan tgt p (InMemoryStorage.getDirectReferrals s cur) vis [] with
        | .error found => some found
        | .ok (vis', adds) => fspAux s tgt fuel vis' (rest ++ adds) := rfl

/-- Main invariant argument for `fspAux`: whenever the BFS returns a path it
is a valid chain from `src` to `tgt` of minimal length among all such
chains.  The invariants carried through the loop are: every queue entry
holds a valid chain from `src` ending at its node; queued path lengths are
sorted and within one of the head length; queued nodes are visited and the
target is unvisited; every visited node no longer queued has been fully
expanded; and every `src`-`tgt` chain has a queued entry sitting on it at
least as early as its own position. -/
theorem fspAux_min {s : Storage} {src tgt : UserId}
    (hvalid : ∀ u n, mget s.users u = some n → isValidUserId u = true)
    (hchildU : ∀ u x, x ∈ children s u → (mget s.users x).isSome) :
    ∀ (fuel : Nat) (vis : List UserId) (Q : List (UserId × List UserId)) (res : List UserId),
      fspAux s tgt fuel vis Q = some res →
      (∀ e ∈ Q, e.2.head? = some src ∧ e.2.getLast? = some e.1 ∧
        EdgeChain s e.2 ∧ (mget s.users e.1).isSome) →
      List.Pairwise (fun a b => a.2.length ≤ b.2.length) Q →
      (∀ e ∈ Q, ∀ q₀, Q.head? = some q₀ → e.2.length ≤ q₀.2.length + 1) →
      (∀ e ∈ Q, e.1 ∈ vis) →
      tgt ∉ vis →
      (∀ v ∈ vis, (∀ e ∈ Q, e.1 ≠ v) → ∀ c ∈ children s v, c ∈ vis ∧ c ≠ tgt) →
      (∀ P, STChain s src tgt P → ∃ e ∈ Q, ∃ j, j < P.length ∧
        P.getD j blankId = e.1 ∧ e.2.length ≤ j + 1) →
      STChain s src tgt res ∧ 2 ≤ res.length ∧
        ∀ P, STChain s src tgt P → res.length ≤ P.length := by
  intro fuel
  induction fuel with
  | zero =>
      intro vis Q res hres
      simp [fspAux] at hres
  | succ fuel ih =>
      intro vis Q res hres hQI hSort hB2 hCv hCt hD hE
      cases Q with
      | nil => simp [fspAux] at hres
      | cons hd rest =>
          obtain ⟨cur, p⟩ := hd
          obtain ⟨hph, hpl, hpc, hpsome⟩ := hQI (cur, p) (List.mem_cons_self _ _)
          have hpne : p ≠ [] := by
            intro h
            rw [h] at hph
            simp at hph
          obtain ⟨n, hn⟩ := Option.isSome_iff_exists.mp hpsome
          have hval : isValidUserId cur = true := hvalid cur n hn
          rw [fspAux_succ, hval] at hres
          simp only [Bool.not_true] at hres
          rw [if_neg (by simp)] at hres
          have hcurvis : cur ∈ vis := hCv (cur, p) (List.mem_cons_self _ _)
          have hcurtgt : cur ≠ tgt := by
            intro h
            exact hCt (h ▸ hcurvis)
          cases hscan : fspScan tgt p (InMemoryStorage.getDirectReferrals s cur) vis [] with
          | error found =>
              rw [hscan] at hres
              obtain ⟨hfeq, htgtmem⟩ := fspScan_error hscan
              subst hfeq
              have hres' : res = p ++ [tgt] := by
                cases hres
                rfl
              subst hres'
              have hedge : Edge s cur tgt := htgtmem
              refine ⟨⟨edgeChain_append_edge hpc hpl hedge, ?_, getLast?_append_single p tgt⟩,
                ?_, ?_⟩
              · rw [head?_append_left hpne]
                exact hph
              · have := List.length_pos.mpr hpne
                simp only [List.length_append, List.length_singleton]
                omega
              · intro P hP
                obtain ⟨e, heQ, j, hj, hgd, hlen⟩ := hE P hP
                have hev : e.1 ∈ vis := hCv e heQ
                have hene : e.1 ≠ tgt := by
                  intro h
                  exact hCt (h ▸ hev)
                have hPlast : P.getD (P.length - 1) blankId = tgt :=
                  getD_last_of_getLast blankId hP.2.2
                have hjne : j ≠ P.length - 1 := by
                  intro h
                  rw [h, hPlast] at hgd
                  exact hene hgd.symm
                have hple : p.length ≤ e.2.length := by
                  rcases List.mem_cons.mp heQ with heq | hmem
                  · rw [heq]
                  · exact (List.pairwise_cons.mp hSort).1 e hmem
                simp only [List.length_append, List.length_singleton]
                omega
          | ok pr =>
              obtain ⟨vis', adds⟩ := pr
              rw [hscan] at hres
              obtain ⟨hs1, hs2, hs3, hs4, hs5, hs6, hs7⟩ := fspScan_ok hscan
              have hs5' : ∀ e ∈ adds,
                  ∃ c ∈ InMemoryStorage.getDirectReferrals s cur, e = (c, p ++ [c]) := by
                intro e he
                rcases hs5 e he with h | h
                · cases h
                · exact h
              have haddlen : ∀ e ∈ adds, e.2.length = p.length + 1 := by
                intro e he
                obtain ⟨c, _, rfl⟩ := hs5' e he
                simp
              have hQlenOld : ∀ e ∈ rest, e.2.length ≤ p.length + 1 := fun e he =>
                hB2 e (List.mem_cons_of_mem _ he) (cur, p) rfl
              have hQlen : ∀ e ∈ rest ++ adds, e.2.length ≤ p.length + 1 := by
                intro e he
                rcases List.mem_append.mp he with h | h
                · exact hQlenOld e h
                · exact le_of_eq (haddlen e h)
              have hSortHead : ∀ e ∈ rest, p.length ≤ e.2.length :=
                (List.pairwise_cons.mp hSort).1
              have hQI' : ∀ e ∈ rest ++ adds, e.2.head? = some src ∧
                  e.2.getLast? = some e.1 ∧ EdgeChain s e.2 ∧ (mget s.users e.1).isSome := by
                intro e he
                rcases List.mem_append.mp he with h | h
                · exact hQI e (List.mem_cons_of_mem _ h)
                · obtain ⟨c, hc, rfl⟩ := hs5' e h
                  refine ⟨?_, getLast?_append_single p c,
                    edgeChain_append_edge hpc hpl hc, hchildU cur c hc⟩
                  rw [head?_append_left hpne]
                  exact hph
              have hSort' : List.Pairwise (fun a b => a.2.length ≤ b.2.length)
                  (rest ++ adds) := by
                rw [List.pairwise_append]
                refine ⟨(List.pairwise_cons.mp hSort).2, ?_, ?_⟩
                · apply pairwise_of_mem
                  intro a ha b hb
                  rw [haddlen a ha, haddlen b hb]
                · intro a ha b hb
                  rw [haddlen b hb]
                  exact hQlenOld a ha
              have hB2' : ∀ e ∈ rest ++ adds, ∀ q₀, (rest ++ adds).head? = some q₀ →
                  e.2.length ≤ q₀.2.length + 1 := by
                intro e he q₀ hq₀
                have hq₀mem : q₀ ∈ rest ++ adds := mem_of_head hq₀
                have hlb : p.length ≤ q₀.2.length := by
                  rcases List.mem_append.mp hq₀mem with h | h
                  · exact hSortHead q₀ h
                  · rw [haddlen q₀ h]
                    omega
                have := hQlen e he
                omega
              have hCv' : ∀ e ∈ rest ++ adds, e.1 ∈ vis' := by
                intro e he
                rcases List.mem_append.mp he with h | h
                · exact hs2 _ (hCv e (List.mem_cons_of_mem _ h))
                · obtain ⟨c, hc, rfl⟩ := hs5' e h
                  exact hs3 c hc
              have hCt' : tgt ∉ vis' := by
                intro h
                rcases hs4 tgt h with h' | h'
                · exact hCt h'
                · obtain ⟨c, hc, hceq⟩ := hs5' _ h'
                  exact hs1 c hc ((Prod.mk.inj hceq).1.symm)
              have hD' : ∀ v ∈ vis', (∀ e ∈ rest ++ adds, e.1 ≠ v) →
                  ∀ c ∈ children s v, c ∈ vis' ∧ c ≠ tgt := by
                intro v hv hnot c hc
                rcases hs4 v hv with hvv | hvadds
                · by_cases hvc : v = cur
                  · subst hvc
                    exact ⟨hs3 c hc, hs1 c hc⟩
                  · have hnotold : ∀ e ∈ (cur, p) :: rest, e.1 ≠ v := by
                      intro e he
                      rcases List.mem_cons.mp he with heq | hmem
                      · rw [heq]
                        exact fun h => hvc h.symm
                      · exact hnot e (List.mem_append_left _ hmem)
                    obtain ⟨h1, h2⟩ := hD v hvv hnotold c hc
                    exact ⟨hs2 _ h1, h2⟩
                · exact absurd rfl (hnot _ (List.mem_append_right _ hvadds))
              have hE' : ∀ P, STChain s src tgt P → ∃ e ∈ rest ++ adds, ∃ j,
                  j < P.length ∧ P.getD j blankId = e.1 ∧ e.2.length ≤ j + 1 := by
                intro P hP
                obtain ⟨e, heQ, j, hj, hgd, hlen⟩ := hE P hP
                rcases List.mem_cons.mp heQ with heq | hmem
                · have h1 : e.1 = cur := by rw [heq]
                  have h2 : e.2 = p := by rw [heq]
                  rw [h1] at hgd
                  rw [h2] at hlen
                  have hPlast : P.getD (P.length - 1) blankId = tgt :=
                    getD_last_of_getLast blankId hP.2.2
                  have hjne : j ≠ P.length - 1 := by
                    intro h
                    rw [h, hPlast] at hgd
                    exact hcurtgt hgd.symm
                  have hj1 : j + 1 < P.length := by omega
                  have hedgec : Edge s cur (P.getD (j + 1) blankId) := by
                    have := edgeChain_getD_edge blankId P hP.1 j hj1
                    rw [hgd] at this
                    exact this
                  have hcs : P.getD (j + 1) blankId ∈
                      InMemoryStorage.getDirectReferrals s cur := hedgec
                  by_cases hcv : P.getD (j + 1) blankId ∈ vis
                  · have hcv' : P.getD (j + 1) blankId ∈ vis' := hs2 _ hcv
                    have hex : ∃ m, j < m ∧ m < P.length ∧ P.getD m blankId ∉ vis' := by
                      refine ⟨P.length - 1, by omega, by omega, ?_⟩
                      rw [hPlast]
                      exact hCt'
                    obtain ⟨hjm, hmP, hmnot⟩ := Nat.find_spec hex
                    have hmin := fun m' (hm' : m' < Nat.find hex) => Nat.find_min hex hm'
                    have hm2 : j + 2 ≤ Nat.find hex := by
                      by_contra hcon
                      have hmeq : Nat.find hex = j + 1 := by omega
                      rw [hmeq] at hmnot
                      exact hmnot hcv'
                    have hprev : P.getD (Nat.find hex - 1) blankId ∈ vis' := by
                      by_contra hcon
                      exact hmin (Nat.find hex - 1) (by omega) ⟨by omega, by omega, hcon⟩
                    have hedge2 : Edge s (P.getD (Nat.find hex - 1) blankId)
                        (P.getD (Nat.find hex) blankId) := by
                      have := edgeChain_getD_edge blankId P hP.1 (Nat.find hex - 1)
                        (by omega)
                      rw [show Nat.find hex - 1 + 1 = Nat.find hex from by omega] at this
                      exact this
                    have hQmem : ∃ e' ∈ rest ++ adds,
                        e'.1 = P.getD (Nat.find hex - 1) blankId := by
                      by_contra hno
                      push_neg at hno
                      have := hD' (P.getD (Nat.find hex - 1) blankId) hprev
                        (fun e' he' => hno e' he') (P.getD (Nat.find hex) blankId) hedge2
                      exact hmnot this.1
                    obtain ⟨e', he', he'eq⟩ := hQmem
                    refine ⟨e', he', Nat.find hex - 1, by omega, he'eq.symm, ?_⟩
                    have := hQlen e' he'
                    omega
                  · have hpush : (P.getD (j + 1) blankId,
                        p ++ [P.getD (j + 1) blankId]) ∈ adds := hs7 _ hcs hcv
                    refine ⟨_, List.mem_append_right _ hpush, j + 1, hj1, rfl, ?_⟩
                    simp only [List.length_append, List.length_singleton]
                    omega
                · exact ⟨e, List.mem_append_left _ hmem, j, hj, hgd, hlen⟩
              exact ih vis' (rest ++ adds) res hres hQI' hSort' hB2' hCv' hCt' hD' hE'

/-- `findShortestPath` soundness and minimality: a returned path is a valid
child-edge chain from `source` to `target` (with at least one edge) of
minimal length among all such chains. -/
theorem findShortestPath_spec {s : Storage} (hW : WFAny s) {src tgt : UserId}
    (hne : src ≠ tgt) (hsrc : (mget s.users src).isSome) {res : List UserId}
    (h : findShortestPath s src tgt = some res) :
    STChain s src tgt res ∧ 2 ≤ res.length ∧
      ∀ P, STChain s src tgt P → res.length ≤ P.length := by
  rw [findShortestPath, if_neg hne] at h
  refine fspAux_min hW.validIds hW.childUsers _ [src] [(src, [src])] res h
    ?_ ?_ ?_ ?_ ?_ ?_ ?_
  · intro e he
    rw [List.mem_singleton] at he
    subst he
    exact ⟨rfl, rfl, edgeChain_single src, hsrc⟩
  · exact List.pairwise_singleton _ _
  · intro e he q₀ hq₀
    rw [List.mem_singleton] at he
    subst he
    cases hq₀
    simp
  · intro e he
    rw [List.mem_singleton] at he
    subst he
    exact List.mem_singleton_self src
  · intro hmem
    rw [List.mem_singleton] at hmem
    exact hne hmem.symm
  · intro v hv hnot c hc
    rw [List.mem_singleton] at hv
    exact absurd hv.symm (hnot (src, [src]) (List.mem_singleton_self _))
  · intro P hP
    refine ⟨(src, [src]), List.mem_singleton_self _, 0, ?_, ?_, ?_⟩
    · exact List.length_pos.mpr (List.ne_nil_of_mem (mem_of_head hP.2.1))
    · exact getD_zero_of_head blankId hP.2.1
    · simp

theorem foldl_add_zero {α : Type} (g : α → Nat) :
    ∀ (l : List α) (i : Nat), (∀ a ∈ l, g a = 0) → l.foldl (fun acc a => acc + g a) i = i := by
  intro l
  induction l with
  | nil => intro i _; rfl
  | cons a t ih =>
      intro i h
      rw [List.foldl_cons, h a (List.mem_cons_self _ _), Nat.add_zero]
      exact ih i (fun x hx => h x (List.mem_cons_of_mem _ hx))

theorem mem_ids_isSome {s : Storage} (hW : WFAny s) {a : UserId}
    (ha : a ∈ (InMemoryStorage.getAllUsers s).map (·.userId)) :
    (mget s.users a).isSome := by
  rw [List.mem_map] at ha
  obtain ⟨n, hn, rfl⟩ := ha
  unfold InMemoryStorage.getAllUsers at hn
  rw [List.mem_map] at hn
  obtain ⟨kv, hkv, rfl⟩ := hn
  have hm : mget s.users kv.1 = some kv.2 := mem_mget hW.keysNodup hkv
  rw [hW.userIdEq kv.1 kv.2 hm, hm]
  rfl

/-- `calculateFlowCentrality` is zero as soon as no examined ordered pair
contributes a counted path. -/
theorem calculateFlowCentrality_eq_zero {s : Storage} {u : UserId}
    (h : ∀ a b p, a ≠ u → b ≠ u → b ≠ a →
      a ∈ (InMemoryStorage.getAllUsers s).map (·.userId) →
      b ∈ (InMemoryStorage.getAllUsers s).map (·.userId) →
      findShortestPath s a b = some p → ¬(p.length > 2 ∧ u ∈ p.tail.dropLast)) :
    calculateFlowCentrality s u = 0 := by
  simp only [calculateFlowCentrality]
  apply foldl_add_zero
  intro a ha
  rw [List.countP_eq_zero]
  intro b hb
  intro hcontra
  rw [List.mem_filter] at ha hb
  have ha2 : a ≠ u := of_decide_eq_true ha.2
  have hb2 : b ≠ u ∧ b ≠ a := of_decide_eq_true hb.2
  have hc2 : (match findShortestPath s a b with
      | some p => decide (p.length > 2 ∧ u ∈ p.tail.dropLast)
      | none => false) = true := hcontra
  cases hfsp : findShortestPath s a b with
  | none =>
      rw [hfsp] at hc2
      simp at hc2
  | some p =>
      rw [hfsp] at hc2
      exact h a b p ha2 hb2.1 hb2.2 ha.1 hb.1 hfsp (of_decide_eq_true hc2)

/-- Claim C9 — flow centrality boundary: in every reachable network state
(under any configuration), `calculateFlowCentrality u` is `0` when `u` is a
leaf (no direct referrals), and also when no ordered pair of users other
than `u` is joined by a shortest directed path of at least two edges with
`u` as an interior node. -/
theorem flow_centrality_boundary {s : Storage} (hs : ReachableAny s) (u : UserId) :
    (InMemoryStorage.getDirectReferrals s u = [] → calculateFlowCentrality s u = 0) ∧
    ((¬ ∃ a b P, a ≠ u ∧ b ≠ u ∧ b ≠ a ∧
        (mget s.users a).isSome ∧ (mget s.users b).isSome ∧
        STChain s a b P ∧ 3 ≤ P.length ∧ u ∈ P.tail.dropLast ∧
        (∀ Q, STChain s a b Q → P.length ≤ Q.length)) →
      calculateFlowCentrality s u = 0) := by
  have hW : WFAny s := WFAny_of_reachableAny hs
  constructor
  · intro hleaf
    apply calculateFlowCentrality_eq_zero
    intro a b p hau hbu hba hma hmb hfsp hcontra
    obtain ⟨hlen3, hint⟩ := hcontra
    have hsrc := mem_ids_isSome hW hma
    obtain ⟨⟨hchain, hhd, hlst⟩, hlen2, hmin⟩ :=
      findShortestPath_spec hW (fun h => hba h.symm) hsrc hfsp
    obtain ⟨y, hy⟩ := mem_dropLast_edge p hchain (mem_tail_dropLast hint)
    have hy' : y ∈ InMemoryStorage.getDirectReferrals s u := hy
    rw [hleaf] at hy'
    cases hy'
  · intro hno
    apply calculateFlowCentrality_eq_zero
    intro a b p hau hbu hba hma hmb hfsp hcontra
    obtain ⟨hlen3, hint⟩ := hcontra
    have hsrc := mem_ids_isSome hW hma
    have hmbs := mem_ids_isSome hW hmb
    obtain ⟨hst, hlen2, hmin⟩ :=
      findShortestPath_spec hW (fun h => hba h.symm) hsrc hfsp
    exact hno ⟨a, b, p, hau, hbu, hba, hsrc, hmbs, hst, by omega, hint, hmin⟩

theorem flow_centrality_boundary_witness :
    InMemoryStorage.getDirectReferrals demoStateAB uidB = [] ∧
      calculateFlowCentrality demoStateAB uidB = 0 :=
  ⟨by decide,
    (flow_centrality_boundary
      (ReachableCfg.step Config.default uidA uidB trivial ReachableCfg.empty)
      uidB).1 (by decide)⟩
